import Mathlib

/-!
# PhotoHive-DSP: the sharpness core of `filtering.c`

A shallow embedding of `src/filtering.c` (2D convolution with the skip-out-of-bounds
border policy, the 3x3 Laplacian, and the two sharpness reductions), followed by the
properties proved about it.

Modelling conventions.

* C `int` values are unbounded integers (`ℤ`); signed overflow is undefined in C and is
  not modelled.  Loops `for (int i = 0; i < n; i++)` are folds over `List.range n.toNat`,
  so a loop whose bound is zero or negative does not run.
* A `Pixel`/`double` value is a rational, or one of the IEEE-754 special values (`±∞`,
  NaN); the sign of zero is not represented.
* The code is embedded twice, with the same loops, guards and index expressions.  The
  first embedding (`filter_image`, `sharpness_avg`, ...) computes in exact arithmetic: it
  says which taps, which samples and which normalisers enter a result, and leaves the
  rounding of the `double` operations aside.  The second (`F64.filter_image`,
  `F64.sharpness_avg`, ...) computes as the machine does, in binary64 with rounding to
  nearest, ties to even, after every operation (no fused multiply-add, no extended
  precision); the properties whose truth turns on rounding are stated for it.
* A buffer (`Pixel*`) is a `List Pixel`.  Cells that C leaves indeterminate (fresh
  `malloc` memory, reads outside the buffer) are modelled by NaN.
-/

namespace PhotoHive

/-! ## Values of type `Pixel` / `double` -/

/-- Modelled from the spec: the sample type `Pixel`, whose typedef (`types.h`) is not among
the sources; the spec's data model has real-valued samples, and `filtering.h` uses `Pixel`
and `double` interchangeably.  A value is finite, held exactly as a rational, or an
infinity with its sign (`inf true` is `-∞`), or NaN. -/
inductive Pixel where
  | num (q : ℚ)
  | inf (negative : Bool)
  | nan
deriving DecidableEq

namespace Pixel

/-- Conversion `(Pixel)(n)` / `(double)n` of a C `int`. -/
def ofInt (n : ℤ) : Pixel := num (n : ℚ)

/-- Unary minus. -/
def neg : Pixel → Pixel
  | num a => num (-a)
  | inf s => inf (!s)
  | nan => nan

/-- Addition: exact on finite values, IEEE-754 on the special values. -/
def add : Pixel → Pixel → Pixel
  | num a, num b => num (a + b)
  | num _, inf s => inf s
  | inf s, num _ => inf s
  | inf s, inf t => if s = t then inf s else nan
  | _, _ => nan

/-- Subtraction `a - b`, as `a + (-b)`. -/
def sub (a b : Pixel) : Pixel := add a (neg b)

/-- Multiplication: exact on finite values, IEEE-754 on the special values. -/
def mul : Pixel → Pixel → Pixel
  | num a, num b => num (a * b)
  | num a, inf s => if a = 0 then nan else inf (xor s (decide (a < 0)))
  | inf s, num b => if b = 0 then nan else inf (xor s (decide (b < 0)))
  | inf s, inf t => inf (xor s t)
  | _, _ => nan

/-- Division: exact on finite values with a non-zero divisor; a finite non-zero value
divided by zero is an infinity, and `0 / 0` is NaN. -/
def div : Pixel → Pixel → Pixel
  | num a, num b =>
      if b = 0 then (if a = 0 then nan else inf (decide (a < 0))) else num (a / b)
  | num _, inf _ => num 0
  | inf s, num b => inf (xor s (decide (b < 0)))
  | _, _ => nan

/-- The comparison `a > b` of C; it is false as soon as one side is NaN. -/
def gt : Pixel → Pixel → Bool
  | num a, num b => decide (b < a)
  | num _, inf t => t
  | inf s, num _ => !s
  | inf s, inf t => !s && t
  | _, _ => false

instance : Add Pixel := ⟨add⟩
instance : Sub Pixel := ⟨sub⟩
instance : Mul Pixel := ⟨mul⟩
instance : Div Pixel := ⟨div⟩

end Pixel

/-! ## Buffers -/

/-- The read `buf[i]` of a C array at an `int` index; a read outside the buffer is
indeterminate. -/
def load (buf : List Pixel) : ℤ → Pixel
  | Int.ofNat n => buf.getD n Pixel.nan
  | Int.negSucc _ => Pixel.nan

/-- The write `buf[i] = v` of a C array at an `int` index; a write outside the buffer
leaves the model of the buffer unchanged. -/
def store (buf : List Pixel) (i : ℤ) (v : Pixel) : List Pixel :=
  match i with
  | Int.ofNat n => buf.set n v
  | Int.negSucc _ => buf

/-- The result of `malloc(n * sizeof(Pixel))`: `n` indeterminate cells. -/
def malloc (n : ℤ) : List Pixel := List.replicate n.toNat Pixel.nan

/-! ## The code of `filtering.c` -/

/-- The value of the C literal `0.2`: the binary64 number nearest to 1/5, which is
`3602879701896397 / 2 ^ 54`, slightly above 1/5. -/
def threshold : ℚ := 3602879701896397 / 18014398509481984

/-- The constant `#define THRESHOLD 0.2`. -/
def THRESHOLD : Pixel := Pixel.num threshold

/-- The struct `Filter` of `filtering.h`: an `height` x `width` kernel with row-major
coefficients. -/
structure Filter where
  height : ℤ
  width : ℤ
  coefs : List Pixel

/-- `initialize_3x3_laplacian` (filtering.c, lines 11-21). -/
def initialize_3x3_laplacian : Filter where
  height := 3
  width := 3
  coefs := [Pixel.num (-1), Pixel.num (-1), Pixel.num (-1),
            Pixel.num (-1), Pixel.num 8, Pixel.num (-1),
            Pixel.num (-1), Pixel.num (-1), Pixel.num (-1)]

/-- `sharpness_avg` (filtering.c, lines 29-42): the loop state is the pair
`(p_total, num_p)`; the final division is not guarded. -/
def sharpness_avg (input : List Pixel) (length : ℤ) : Pixel :=
  let st := (List.range length.toNat).foldl
    (fun (st : Pixel × ℤ) (i : ℕ) =>
      let p := load input i
      if Pixel.gt p THRESHOLD then (st.1 + p, st.2 + 1) else st)
    (Pixel.num 0, 0)
  st.1 / Pixel.ofInt st.2

/-- The body of the `y`, `x` loops of `filter_image` up to the store (filtering.c, lines
61-73): the running dot product `dotp` over the taps `(fy, fx)`, taken in row-major order,
where a tap whose image position `(iy, ix)` lies outside the image is skipped. -/
def filter_image.dotp (filt : Filter) (input : List Pixel) (height width : ℤ)
    (y x : ℤ) : Pixel :=
  let filt_h := filt.height
  let filt_w := filt.width
  let yoffs := Int.tdiv filt_h 2
  let xoffs := Int.tdiv filt_w 2
  (List.range filt_h.toNat).foldl
    (fun (dotp : Pixel) (fy : ℕ) =>
      (List.range filt_w.toNat).foldl
        (fun (dotp : Pixel) (fx : ℕ) =>
          let iy : ℤ := y + fy - yoffs
          let ix : ℤ := x + fx - xoffs
          if iy ≥ 0 ∧ iy < height ∧ ix ≥ 0 ∧ ix < width then
            let img_idx : ℤ := iy * width + ix
            let filt_idx : ℤ := fy * filt_w + fx
            dotp + load input img_idx * load filt.coefs filt_idx
          else dotp)
        dotp)
    (Pixel.num 0)

/-- `filter_image` (filtering.c, lines 52-78): a fresh buffer of `height * width` cells,
in which the cell `y * width + x` receives the dot product of the pixel `(y, x)`. -/
def filter_image (filt : Filter) (input : List Pixel) (height width : ℤ) : List Pixel :=
  let output := malloc (height * width)
  (List.range height.toNat).foldl
    (fun (output : List Pixel) (y : ℕ) =>
      (List.range width.toNat).foldl
        (fun (output : List Pixel) (x : ℕ) =>
          store output (y * width + x) (filter_image.dotp filt input height width y x))
        output)
    output

/-- `get_average` (filtering.c, lines 96-102). -/
def get_average (input : List Pixel) (length : ℤ) : Pixel :=
  let accumulator := (List.range length.toNat).foldl
    (fun (accumulator : Pixel) (i : ℕ) => accumulator + load input i)
    (Pixel.num 0)
  accumulator / Pixel.ofInt length

/-- `get_variance` (filtering.c, lines 111-119). -/
def get_variance (input : List Pixel) (length : ℤ) (average : Pixel) : Pixel :=
  let accumulator := (List.range length.toNat).foldl
    (fun (accumulator : Pixel) (i : ℕ) =>
      let diff := load input i - average
      accumulator + diff * diff)
    (Pixel.num 0)
  accumulator / Pixel.ofInt length

/-- `get_variance_sharpness` (filtering.c, lines 122-143); the timing macros and the
releases of memory have no effect on the result. -/
def get_variance_sharpness (input : List Pixel) (height width : ℤ) : Pixel :=
  let filt := initialize_3x3_laplacian
  let filtered := filter_image filt input height width
  let length := height * width
  let avg := get_average filtered length
  let variance := get_variance filtered length avg
  variance

/-- `get_average_sharpness` (filtering.c, lines 146-160). -/
def get_average_sharpness (input : List Pixel) (height width : ℤ) : Pixel :=
  let filt := initialize_3x3_laplacian
  let filtered := filter_image filt input height width
  let length := height * width
  let sharpness_average := sharpness_avg filtered length
  sharpness_average

/-! ## Notions used to state the properties -/

/-- The image row (or column) `p + f - floor(n / 2)` that tap `f` of a kernel of extent `n`
refers to at pixel coordinate `p`. -/
def tapCoord (n p f : ℕ) : ℤ := (p : ℤ) + (f : ℤ) - ((n / 2 : ℕ) : ℤ)

/-- The taps `(fy, fx)` of a `FH` x `FW` kernel that fall inside an `H` x `W` image when the
kernel is centred at the pixel `(y, x)`. -/
def inBoundsTaps (FH FW H W y x : ℕ) : Finset (ℕ × ℕ) :=
  (Finset.range FH ×ˢ Finset.range FW).filter (fun t =>
    0 ≤ tapCoord FH y t.1 ∧ tapCoord FH y t.1 < (H : ℤ) ∧
    0 ≤ tapCoord FW x t.2 ∧ tapCoord FW x t.2 < (W : ℤ))

/-- The product `input[iy * W + ix] * coefs[fy * FW + fx]` contributed by the tap
`t = (fy, fx)` at the pixel `(y, x)`, on buffers of exact values. -/
def tapTerm (FH FW : ℕ) (coefs input : List ℚ) (W y x : ℕ) (t : ℕ × ℕ) : ℚ :=
  input.getD (tapCoord FH y t.1 * (W : ℤ) + tapCoord FW x t.2).toNat 0 *
    coefs.getD (t.1 * FW + t.2) 0

/-- The coefficients of the 3x3 Laplacian as exact values, row-major. -/
def laplacianCoefs : List ℚ := [-1, -1, -1, -1, 8, -1, -1, -1, -1]

/-- The number of the three taps of one axis of a 3x3 kernel that fall inside an image of
extent `n` along that axis, at pixel coordinate `p`. -/
def axisTaps (n p : ℕ) : ℕ :=
  ((Finset.range 3).filter (fun f => 0 ≤ tapCoord 3 p f ∧ tapCoord 3 p f < (n : ℤ))).card

/-- Modelled from the spec: the struct `Image_RGB`, declared in `image_processing.h`, which
is not among the sources; the spec's `RGBImage` is three pixel buffers `r`, `g`, `b` sharing
one `height` and `width`, the fields that `create_filtered_RGB` uses. -/
structure Image_RGB where
  height : ℤ
  width : ℤ
  r : List Pixel
  g : List Pixel
  b : List Pixel

/-- `create_filtered_RGB` (filtering.c, lines 81-87).  The allocator `create_rgb_image`,
defined outside the sources, is a parameter. -/
def create_filtered_RGB (create_rgb_image : ℤ → ℤ → Image_RGB) (input : Image_RGB)
    (filt : Filter) : Image_RGB :=
  let output := create_rgb_image input.width input.height
  let output := { output with r := filter_image filt input.r output.height output.width }
  let output := { output with g := filter_image filt input.g output.height output.width }
  let output := { output with b := filter_image filt input.b output.height output.width }
  output

/-! ## The array accesses of `filter_image` -/

/-- An array access of `filter_image`: a read `input[idx]`, a read `filt->coefs[idx]` or a
write `output[idx]`. -/
inductive Access where
  | input (idx : ℤ)
  | coefs (idx : ℤ)
  | output (idx : ℤ)
deriving DecidableEq

/-- The index of a write to `output`. -/
def Access.written : Access → Option ℤ
  | Access.output idx => some idx
  | _ => none

/-- The array accesses that `filter_image` (filtering.c, lines 59-76) performs, in program
order: for each pixel `(y, x)`, the reads `input[img_idx]` and `filt->coefs[filt_idx]` of
every tap that passes the bounds test, then the write `output[y * width + x]`. -/
def filter_image.accesses (filt : Filter) (height width : ℤ) : List Access :=
  let filt_h := filt.height
  let filt_w := filt.width
  let yoffs := Int.tdiv filt_h 2
  let xoffs := Int.tdiv filt_w 2
  (List.range height.toNat).flatMap (fun (y : ℕ) =>
    (List.range width.toNat).flatMap (fun (x : ℕ) =>
      (List.range filt_h.toNat).flatMap (fun (fy : ℕ) =>
        (List.range filt_w.toNat).flatMap (fun (fx : ℕ) =>
          let iy : ℤ := y + fy - yoffs
          let ix : ℤ := x + fx - xoffs
          if iy ≥ 0 ∧ iy < height ∧ ix ≥ 0 ∧ ix < width then
            let img_idx : ℤ := iy * width + ix
            let filt_idx : ℤ := fy * filt_w + fx
            [Access.input img_idx, Access.coefs filt_idx]
          else []))
      ++ [Access.output (y * width + x)]))

/-- An access is in bounds when its index is a valid index of the buffer it addresses, for
buffers `input`, `filt->coefs` and `output` of the given lengths. -/
def Access.inBounds (inputLen coefsLen outputLen : ℕ) : Access → Prop
  | Access.input idx => 0 ≤ idx ∧ idx < (inputLen : ℤ)
  | Access.coefs idx => 0 ≤ idx ∧ idx < (coefsLen : ℤ)
  | Access.output idx => 0 ≤ idx ∧ idx < (outputLen : ℤ)

/-! ## Binary64 arithmetic

The definitions above compute with exact values.  The definitions of this section are the
same code computed as the machine does, in IEEE-754 binary64 (`double`) with the default
rounding to nearest, ties to even: every `+`, `-`, `*`, `/` rounds its exact result once.
They decide the properties whose truth turns on rounding. -/

/-- The power `2 ^ e` for an integer exponent. -/
def pow2 (e : ℤ) : ℚ :=
  if 0 ≤ e then ((2 ^ e.toNat : ℕ) : ℚ) else 1 / ((2 ^ (-e).toNat : ℕ) : ℚ)

/-- The number of halvings that bring `n` below 2, with `fuel` bounding their number. -/
def log2Fuel : ℕ → ℕ → ℕ
  | 0, _ => 0
  | fuel + 1, n => if 2 ≤ n then log2Fuel fuel (n / 2) + 1 else 0

/-- The exponent `k` with `2 ^ k ≤ n < 2 ^ (k + 1)` of a positive natural number `n`. -/
def natLog2 (n : ℕ) : ℕ := log2Fuel n n

/-- The exponent `e` with `2 ^ e ≤ q < 2 ^ (e + 1)` of a positive rational `q`. -/
def floorLog2 (q : ℚ) : ℤ :=
  let e0 : ℤ := (natLog2 q.num.natAbs : ℤ) - (natLog2 q.den : ℤ)
  if pow2 e0 ≤ q then e0 else e0 - 1

/-- Rounding of a rational to the nearest integer, ties to the even one. -/
def roundHalfEven (x : ℚ) : ℤ :=
  let f : ℤ := ⌊x⌋
  let r : ℚ := x - (f : ℚ)
  if r < 1 / 2 then f
  else if 1 / 2 < r then f + 1
  else if f % 2 = 0 then f else f + 1

/-- The binary64 value nearest to the rational `q` (ties to even): 53 significant bits,
exponents from -1022 (below which the spacing stays `2 ^ (-1074)`: gradual underflow) to
1023 (above which the result is an infinity). -/
def roundDouble (q : ℚ) : Pixel :=
  if q = 0 then Pixel.num 0
  else
    let e : ℤ := max (floorLog2 |q|) (-1022)
    let ulp : ℚ := pow2 (e - 52)
    let r : ℚ := (roundHalfEven (q / ulp) : ℚ) * ulp
    if pow2 1024 ≤ |r| then Pixel.inf (decide (q < 0)) else Pixel.num r

/-- Rounding of the result of an operation: a finite result is rounded to binary64, an
infinity or NaN is kept. -/
def Pixel.round : Pixel → Pixel
  | Pixel.num q => roundDouble q
  | p => p

namespace F64

/-- The binary64 sum. -/
def add (a b : Pixel) : Pixel := Pixel.round (a + b)

/-- The binary64 difference. -/
def sub (a b : Pixel) : Pixel := Pixel.round (a - b)

/-- The binary64 product. -/
def mul (a b : Pixel) : Pixel := Pixel.round (a * b)

/-- The binary64 quotient. -/
def div (a b : Pixel) : Pixel := Pixel.round (a / b)

/-- `sharpness_avg` (filtering.c, lines 29-42) in binary64. -/
def sharpness_avg (input : List Pixel) (length : ℤ) : Pixel :=
  let st := (List.range length.toNat).foldl
    (fun (st : Pixel × ℤ) (i : ℕ) =>
      let p := load input i
      if Pixel.gt p THRESHOLD then (add st.1 p, st.2 + 1) else st)
    (Pixel.num 0, 0)
  div st.1 (Pixel.ofInt st.2)

/-- The dot product of one pixel of `filter_image` (filtering.c, lines 61-73) in binary64:
each product is rounded, then each sum. -/
def filter_image.dotp (filt : Filter) (input : List Pixel) (height width : ℤ)
    (y x : ℤ) : Pixel :=
  let filt_h := filt.height
  let filt_w := filt.width
  let yoffs := Int.tdiv filt_h 2
  let xoffs := Int.tdiv filt_w 2
  (List.range filt_h.toNat).foldl
    (fun (dotp : Pixel) (fy : ℕ) =>
      (List.range filt_w.toNat).foldl
        (fun (dotp : Pixel) (fx : ℕ) =>
          let iy : ℤ := y + fy - yoffs
          let ix : ℤ := x + fx - xoffs
          if iy ≥ 0 ∧ iy < height ∧ ix ≥ 0 ∧ ix < width then
            let img_idx : ℤ := iy * width + ix
            let filt_idx : ℤ := fy * filt_w + fx
            add dotp (mul (load input img_idx) (load filt.coefs filt_idx))
          else dotp)
        dotp)
    (Pixel.num 0)

/-- `filter_image` (filtering.c, lines 52-78) in binary64. -/
def filter_image (filt : Filter) (input : List Pixel) (height width : ℤ) : List Pixel :=
  let output := malloc (height * width)
  (List.range height.toNat).foldl
    (fun (output : List Pixel) (y : ℕ) =>
      (List.range width.toNat).foldl
        (fun (output : List Pixel) (x : ℕ) =>
          store output (y * width + x) (filter_image.dotp filt input height width y x))
        output)
    output

/-- `get_average` (filtering.c, lines 96-102) in binary64. -/
def get_average (input : List Pixel) (length : ℤ) : Pixel :=
  let accumulator := (List.range length.toNat).foldl
    (fun (accumulator : Pixel) (i : ℕ) => add accumulator (load input i))
    (Pixel.num 0)
  div accumulator (Pixel.ofInt length)

/-- `get_variance` (filtering.c, lines 111-119) in binary64. -/
def get_variance (input : List Pixel) (length : ℤ) (average : Pixel) : Pixel :=
  let accumulator := (List.range length.toNat).foldl
    (fun (accumulator : Pixel) (i : ℕ) =>
      let diff := sub (load input i) average
      add accumulator (mul diff diff))
    (Pixel.num 0)
  div accumulator (Pixel.ofInt length)

/-- `get_variance_sharpness` (filtering.c, lines 122-143) in binary64. -/
def get_variance_sharpness (input : List Pixel) (height width : ℤ) : Pixel :=
  let filt := initialize_3x3_laplacian
  let filtered := filter_image filt input height width
  let length := height * width
  let avg := get_average filtered length
  let variance := get_variance filtered length avg
  variance

/-- `get_average_sharpness` (filtering.c, lines 146-160) in binary64. -/
def get_average_sharpness (input : List Pixel) (height width : ℤ) : Pixel :=
  let filt := initialize_3x3_laplacian
  let filtered := filter_image filt input height width
  let length := height * width
  let sharpness_average := sharpness_avg filtered length
  sharpness_average

end F64

/-! ## Arithmetic on finite values -/

@[simp]
theorem Pixel.num_add_num (a b : ℚ) : Pixel.num a + Pixel.num b = Pixel.num (a + b) := rfl

@[simp]
theorem Pixel.num_mul_num (a b : ℚ) : Pixel.num a * Pixel.num b = Pixel.num (a * b) := rfl

@[simp]
theorem Pixel.num_sub_num (a b : ℚ) : Pixel.num a - Pixel.num b = Pixel.num (a - b) := by
  show Pixel.add (Pixel.num a) (Pixel.neg (Pixel.num b)) = _
  simp [Pixel.add, Pixel.neg, sub_eq_add_neg]

theorem Pixel.num_div_num (a b : ℚ) (hb : b ≠ 0) : Pixel.num a / Pixel.num b = Pixel.num (a / b) := by
  show Pixel.div (Pixel.num a) (Pixel.num b) = _
  simp [Pixel.div, hb]

theorem Pixel.num_injective : Function.Injective Pixel.num := by
  intro a b h
  cases h
  rfl

/-! ## Reads and writes -/

theorem load_natCast (buf : List Pixel) (n : ℕ) : load buf (n : ℤ) = buf.getD n Pixel.nan := rfl

theorem store_natCast (buf : List Pixel) (n : ℕ) (v : Pixel) : store buf (n : ℤ) v = buf.set n v := rfl

theorem length_store (buf : List Pixel) (i : ℤ) (v : Pixel) : (store buf i v).length = buf.length := by
  cases i <;> simp [store]

theorem load_map_num (l : List ℚ) (i : ℤ) (h0 : 0 ≤ i) (h1 : i < l.length) :
    load (l.map Pixel.num) i = Pixel.num (l.getD i.toNat 0) := by
  obtain ⟨n, rfl⟩ := Int.eq_ofNat_of_zero_le h0
  have hn : n < l.length := by exact_mod_cast h1
  rw [load_natCast]
  simp [List.getD_eq_getElem?_getD, List.getElem?_eq_getElem hn]

/-! ## Loops -/

/-- Loop invariants: a property that holds before a `for` loop over `0 .. n-1` and is kept by
each iteration holds after the loop. -/
theorem foldl_range_inv {α : Type} (f : α → ℕ → α) (I : ℕ → α → Prop) (n : ℕ) (a0 : α)
    (h0 : I 0 a0) (hstep : ∀ k, k < n → ∀ a, I k a → I (k + 1) (f a k)) :
    I n ((List.range n).foldl f a0) := by
  induction n with
  | zero => simpa using h0
  | succ n ih =>
    rw [List.range_succ, List.foldl_append]
    simp only [List.foldl_cons, List.foldl_nil]
    exact hstep n (Nat.lt_succ_self n) _
      (ih (fun k hk a ha => hstep k (Nat.lt_succ_of_lt hk) a ha))

/-- A loop that adds a finite term `g k` to a finite accumulator at each iteration computes
the sum of the terms. -/
theorem foldl_range_sum (f : Pixel → ℕ → Pixel) (g : ℕ → ℚ) (n : ℕ) (q0 : ℚ)
    (hf : ∀ k, k < n → ∀ q, f (Pixel.num q) k = Pixel.num (q + g k)) :
    (List.range n).foldl f (Pixel.num q0) = Pixel.num (q0 + ∑ k ∈ Finset.range n, g k) := by
  have h := foldl_range_inv f
    (fun k a => a = Pixel.num (q0 + ∑ j ∈ Finset.range k, g j)) n (Pixel.num q0) (by simp)
    (by
      intro k hk a ha
      rw [ha, hf k hk, Finset.sum_range_succ, add_assoc])
  exact h


/-! ## The buffer returned by `filter_image` -/

/-- The length of the returned buffer, for all `int` dimensions. -/
theorem length_filter_image (filt : Filter) (input : List Pixel) (height width : ℤ) :
    (filter_image filt input height width).length = (height * width).toNat := by
  unfold filter_image
  refine foldl_range_inv _ (fun _ (o : List Pixel) => o.length = (height * width).toNat) _ _
    (by simp [malloc]) ?_
  intro y _ o ho
  refine foldl_range_inv _ (fun _ (o : List Pixel) => o.length = (height * width).toNat) _ _ ho ?_
  intro x _ o ho
  beta_reduce
  rw [length_store, ho]

theorem index_lt (H W y x : ℕ) (hy : y < H) (hx : x < W) : y * W + x < H * W := by
  have h1 : (y + 1) * W ≤ H * W := Nat.mul_le_mul_right W hy
  have h2 : (y + 1) * W = y * W + W := by ring
  omega

theorem index_div (W y x : ℕ) (hx : x < W) : (y * W + x) / W = y := by
  have hW : 0 < W := by omega
  rw [Nat.add_comm, Nat.add_mul_div_right _ _ hW, Nat.div_eq_of_lt hx, Nat.zero_add]

theorem index_mod (W y x : ℕ) (hx : x < W) : (y * W + x) % W = x := by
  rw [Nat.add_comm, Nat.add_mul_mod_self_right, Nat.mod_eq_of_lt hx]

/-- The loops of `filter_image` write every cell of the output once, in increasing order
of the index, so the cell `i` of the result holds the dot product of the pixel
`(i / W, i % W)`. -/
theorem filter_image_eq (filt : Filter) (input : List Pixel) (H W : ℕ) :
    filter_image filt input H W =
      (List.range (H * W)).map
        (fun i => filter_image.dotp filt input H W ((i / W : ℕ) : ℤ) ((i % W : ℕ) : ℤ)) := by
  have hlen := length_filter_image filt input H W
  have hcast : ((H : ℤ) * (W : ℤ)).toNat = H * W := by
    rw [← Nat.cast_mul, Int.toNat_natCast]
  rw [hcast] at hlen
  -- invariant: the first `k` cells are final
  have key : ∀ i, i < H * W → (filter_image filt input H W)[i]? =
      some (filter_image.dotp filt input H W ((i / W : ℕ) : ℤ) ((i % W : ℕ) : ℤ)) := by
    unfold filter_image
    simp only [Int.toNat_natCast]
    have hout := foldl_range_inv
      (fun (output : List Pixel) (y : ℕ) =>
        (List.range W).foldl
          (fun (output : List Pixel) (x : ℕ) =>
            store output ((y : ℤ) * (W : ℤ) + (x : ℤ))
              (filter_image.dotp filt input H W y x))
          output)
      (fun y o => o.length = H * W ∧ ∀ i, i < y * W → o[i]? =
        some (filter_image.dotp filt input H W ((i / W : ℕ) : ℤ) ((i % W : ℕ) : ℤ)))
      H (malloc ((H : ℤ) * (W : ℤ)))
      (by simp [malloc, hcast])
      (by
        intro y hy o ho
        have hin := foldl_range_inv
          (fun (output : List Pixel) (x : ℕ) =>
            store output ((y : ℤ) * (W : ℤ) + (x : ℤ))
              (filter_image.dotp filt input H W y x))
          (fun x o => o.length = H * W ∧ ∀ i, i < y * W + x → o[i]? =
            some (filter_image.dotp filt input H W ((i / W : ℕ) : ℤ) ((i % W : ℕ) : ℤ)))
          W o (by simpa using ho)
          (by
            intro x hx o ho
            have hidx : ((y : ℤ) * (W : ℤ) + (x : ℤ)) = ((y * W + x : ℕ) : ℤ) := by
              push_cast; ring
            beta_reduce
            rw [hidx, store_natCast]
            refine ⟨by simp [ho.1], ?_⟩
            intro i hi
            rw [List.getElem?_set]
            by_cases hik : y * W + x = i
            · subst hik
              have hlt : y * W + x < o.length := by
                rw [ho.1]; exact index_lt H W y x hy hx
              simp [hlt, index_div W y x hx, index_mod W y x hx]
            · simp only [hik, if_false]
              exact ho.2 i (by omega))
        refine ⟨hin.1, ?_⟩
        intro i hi
        exact hin.2 i (by rw [Nat.succ_mul] at hi; exact hi))
    intro i hi
    exact hout.2 i hi
  apply List.ext_getElem?
  intro i
  by_cases hi : i < H * W
  · rw [key i hi, List.getElem?_map, List.getElem?_range hi]
    rfl
  · have h1 : (filter_image filt input H W).length ≤ i := by omega
    rw [List.getElem?_eq_none h1, List.getElem?_eq_none (by simpa using Nat.le_of_not_lt hi)]


/-! ## The dot product at one pixel -/

theorem tap_index_bounds (H W : ℕ) (iy ix : ℤ) (h1 : 0 ≤ iy) (h2 : iy < H) (h3 : 0 ≤ ix)
    (h4 : ix < W) : 0 ≤ iy * (W : ℤ) + ix ∧ iy * (W : ℤ) + ix < ((H * W : ℕ) : ℤ) := by
  obtain ⟨a, rfl⟩ := Int.eq_ofNat_of_zero_le h1
  obtain ⟨b, rfl⟩ := Int.eq_ofNat_of_zero_le h3
  have ha : a < H := by exact_mod_cast h2
  have hb : b < W := by exact_mod_cast h4
  have := index_lt H W a b ha hb
  constructor
  · positivity
  · exact_mod_cast this

/-- On buffers of finite values the dot product computed for the pixel `(y, x)` is the
sum of the products of the in-bounds taps. -/
theorem dotp_num (FH FW H W : ℕ) (coefs input : List ℚ) (hc : coefs.length = FH * FW)
    (hi : input.length = H * W) (y x : ℕ) :
    filter_image.dotp ⟨FH, FW, coefs.map Pixel.num⟩ (input.map Pixel.num) H W y x =
      Pixel.num (∑ t ∈ inBoundsTaps FH FW H W y x, tapTerm FH FW coefs input W y x t) := by
  unfold filter_image.dotp
  simp only [Int.toNat_natCast]
  have hoy : Int.tdiv (FH : ℤ) 2 = ((FH / 2 : ℕ) : ℤ) := (Int.ofNat_tdiv FH 2).symm
  have hox : Int.tdiv (FW : ℤ) 2 = ((FW / 2 : ℕ) : ℤ) := (Int.ofNat_tdiv FW 2).symm
  rw [hoy, hox]
  rw [foldl_range_sum _ (fun fy => ∑ fx ∈ Finset.range FW,
    if 0 ≤ tapCoord FH y fy ∧ tapCoord FH y fy < (H : ℤ) ∧
        0 ≤ tapCoord FW x fx ∧ tapCoord FW x fx < (W : ℤ)
    then tapTerm FH FW coefs input W y x (fy, fx) else 0) FH 0]
  · rw [zero_add, inBoundsTaps, Finset.sum_filter, Finset.sum_product]
  · intro fy hfy q
    apply foldl_range_sum
    intro fx hfx q
    by_cases hcond : 0 ≤ tapCoord FH y fy ∧ tapCoord FH y fy < (H : ℤ) ∧
        0 ≤ tapCoord FW x fx ∧ tapCoord FW x fx < (W : ℤ)
    · have hcond2 : (y : ℤ) + (fy : ℤ) - ((FH / 2 : ℕ) : ℤ) ≥ 0 ∧
          (y : ℤ) + (fy : ℤ) - ((FH / 2 : ℕ) : ℤ) < (H : ℤ) ∧
          (x : ℤ) + (fx : ℤ) - ((FW / 2 : ℕ) : ℤ) ≥ 0 ∧
          (x : ℤ) + (fx : ℤ) - ((FW / 2 : ℕ) : ℤ) < (W : ℤ) := hcond
      rw [if_pos hcond2, if_pos hcond]
      obtain ⟨h1, h2, h3, h4⟩ := hcond
      have hb := tap_index_bounds H W _ _ h1 h2 h3 h4
      have hfidx : (fy : ℤ) * (FW : ℤ) + (fx : ℤ) = ((fy * FW + fx : ℕ) : ℤ) := by
        push_cast; ring
      have hflt : fy * FW + fx < coefs.length := by
        rw [hc]; exact index_lt FH FW fy fx hfy hfx
      have hl1 : load (input.map Pixel.num)
          (((y : ℤ) + (fy : ℤ) - ((FH / 2 : ℕ) : ℤ)) * (W : ℤ) +
            ((x : ℤ) + (fx : ℤ) - ((FW / 2 : ℕ) : ℤ))) =
          Pixel.num (input.getD (tapCoord FH y fy * (W : ℤ) + tapCoord FW x fx).toNat 0) :=
        load_map_num input _ hb.1 (by rw [hi]; exact hb.2)
      have hl2 : load (coefs.map Pixel.num) ((fy : ℤ) * (FW : ℤ) + (fx : ℤ)) =
          Pixel.num (coefs.getD (fy * FW + fx) 0) := by
        rw [hfidx, load_map_num coefs _ (by positivity) (by exact_mod_cast hflt),
          Int.toNat_natCast]
      rw [hl1, hl2]
      simp [tapTerm]
    · have hcond2 : ¬ ((y : ℤ) + (fy : ℤ) - ((FH / 2 : ℕ) : ℤ) ≥ 0 ∧
          (y : ℤ) + (fy : ℤ) - ((FH / 2 : ℕ) : ℤ) < (H : ℤ) ∧
          (x : ℤ) + (fx : ℤ) - ((FW / 2 : ℕ) : ℤ) ≥ 0 ∧
          (x : ℤ) + (fx : ℤ) - ((FW / 2 : ℕ) : ℤ) < (W : ℤ)) := hcond
      rw [if_neg hcond2, if_neg hcond, add_zero]

/-- The buffer returned by `filter_image` on buffers of finite values. -/
theorem filter_image_num (FH FW H W : ℕ) (coefs input : List ℚ) (hc : coefs.length = FH * FW)
    (hi : input.length = H * W) :
    filter_image ⟨FH, FW, coefs.map Pixel.num⟩ (input.map Pixel.num) H W =
      ((List.range (H * W)).map (fun i =>
        ∑ t ∈ inBoundsTaps FH FW H W (i / W) (i % W),
          tapTerm FH FW coefs input W (i / W) (i % W) t)).map Pixel.num := by
  rw [filter_image_eq, List.map_map]
  apply List.map_congr_left
  intro i _
  exact dotp_num FH FW H W coefs input hc hi (i / W) (i % W)

/-- The cell of the pixel `(y, x)` in the buffer returned by `filter_image`. -/
theorem filter_image_getElem (FH FW H W : ℕ) (coefs input : List ℚ)
    (hc : coefs.length = FH * FW) (hi : input.length = H * W) (y x : ℕ) (hy : y < H)
    (hx : x < W) :
    (filter_image ⟨FH, FW, coefs.map Pixel.num⟩ (input.map Pixel.num) H W)[y * W + x]? =
      some (Pixel.num (∑ t ∈ inBoundsTaps FH FW H W y x, tapTerm FH FW coefs input W y x t)) := by
  rw [filter_image_num FH FW H W coefs input hc hi]
  simp [List.getElem?_range (index_lt H W y x hy hx), index_div W y x hx, index_mod W y x hx]


/-! ## Which taps are in bounds -/

/-- For a 3x3 kernel the in-bounds taps are counted axis by axis. -/
theorem card_inBoundsTaps_three (H W y x : ℕ) :
    (inBoundsTaps 3 3 H W y x).card = axisTaps H y * axisTaps W x := by
  unfold inBoundsTaps axisTaps
  rw [← Finset.card_product, ← Finset.filter_product]
  congr 1
  apply Finset.filter_congr
  rintro ⟨fy, fx⟩ _
  simp only [and_assoc]

/-- The taps of one axis: the one before the pixel, the pixel's own, the one after. -/
theorem axisTaps_eq (n p : ℕ) :
    axisTaps n p = (if 1 ≤ p ∧ p ≤ n then 1 else 0) + (if p < n then 1 else 0) +
      (if p + 1 < n then 1 else 0) := by
  unfold axisTaps
  rw [Finset.card_filter]
  simp only [Finset.sum_range_succ, Finset.sum_range_zero, tapCoord, zero_add]
  have e0 : (0 ≤ (p : ℤ) + ((0 : ℕ) : ℤ) - ((3 / 2 : ℕ) : ℤ) ∧
      (p : ℤ) + ((0 : ℕ) : ℤ) - ((3 / 2 : ℕ) : ℤ) < (n : ℤ)) ↔ (1 ≤ p ∧ p ≤ n) := by omega
  have e1 : (0 ≤ (p : ℤ) + ((1 : ℕ) : ℤ) - ((3 / 2 : ℕ) : ℤ) ∧
      (p : ℤ) + ((1 : ℕ) : ℤ) - ((3 / 2 : ℕ) : ℤ) < (n : ℤ)) ↔ p < n := by omega
  have e2 : (0 ≤ (p : ℤ) + ((2 : ℕ) : ℤ) - ((3 / 2 : ℕ) : ℤ) ∧
      (p : ℤ) + ((2 : ℕ) : ℤ) - ((3 / 2 : ℕ) : ℤ) < (n : ℤ)) ↔ p + 1 < n := by omega
  simp only [e0, e1, e2]

theorem axisTaps_interior (n p : ℕ) (h1 : 1 ≤ p) (h2 : p + 2 ≤ n) : axisTaps n p = 3 := by
  rw [axisTaps_eq]
  have a : 1 ≤ p ∧ p ≤ n := by omega
  have b : p < n := by omega
  have c : p + 1 < n := by omega
  simp [a, b, c]

theorem axisTaps_le_three (n p : ℕ) : axisTaps n p ≤ 3 := by
  rw [axisTaps_eq]
  split_ifs <;> omega

theorem axisTaps_border (n p : ℕ) (hp : p < n) (h : p = 0 ∨ p + 1 = n) : axisTaps n p ≤ 2 := by
  rw [axisTaps_eq]
  split_ifs <;> omega

theorem axisTaps_small (n p : ℕ) (hn : n ≤ 2) (hp : p < n) : axisTaps n p = n := by
  rw [axisTaps_eq]
  split_ifs <;> omega

theorem axisTaps_pos (n p : ℕ) (hp : p < n) : 1 ≤ axisTaps n p := by
  rw [axisTaps_eq]
  split_ifs <;> omega


/-! ## The Laplacian on a uniform image -/

theorem laplacian_eq :
    initialize_3x3_laplacian =
      ⟨((3 : ℕ) : ℤ), ((3 : ℕ) : ℤ), laplacianCoefs.map Pixel.num⟩ := rfl

theorem mem_inBoundsTaps (FH FW H W y x : ℕ) (t : ℕ × ℕ) :
    t ∈ inBoundsTaps FH FW H W y x ↔
      (t.1 < FH ∧ t.2 < FW) ∧ 0 ≤ tapCoord FH y t.1 ∧ tapCoord FH y t.1 < (H : ℤ) ∧
        0 ≤ tapCoord FW x t.2 ∧ tapCoord FW x t.2 < (W : ℤ) := by
  simp [inBoundsTaps]

theorem centre_mem_inBoundsTaps (H W y x : ℕ) (hy : y < H) (hx : x < W) :
    ((1, 1) : ℕ × ℕ) ∈ inBoundsTaps 3 3 H W y x := by
  rw [mem_inBoundsTaps]
  simp only [tapCoord]
  omega

theorem laplacianCoefs_getD (a b : ℕ) (ha : a < 3) (hb : b < 3) :
    laplacianCoefs.getD (a * 3 + b) 0 = if ((a, b) : ℕ × ℕ) = (1, 1) then 8 else -1 := by
  interval_cases a <;> interval_cases b <;> simp [laplacianCoefs]

/-- On a uniform image of value `c` the Laplacian response at a pixel is `c` times the
sum of the coefficients of the in-bounds taps, that is `c * (9 - n)` for `n` such taps. -/
theorem laplacian_uniform_sum (H W : ℕ) (c : ℚ) (y x : ℕ) (hy : y < H) (hx : x < W) :
    ∑ t ∈ inBoundsTaps 3 3 H W y x,
        tapTerm 3 3 laplacianCoefs (List.replicate (H * W) c) W y x t =
      c * (9 - ((inBoundsTaps 3 3 H W y x).card : ℚ)) := by
  have hterm : ∀ t ∈ inBoundsTaps 3 3 H W y x,
      tapTerm 3 3 laplacianCoefs (List.replicate (H * W) c) W y x t =
        (if t = ((1, 1) : ℕ × ℕ) then 9 * c else 0) - c := by
    rintro ⟨a, b⟩ ht
    rw [mem_inBoundsTaps] at ht
    dsimp only at ht
    obtain ⟨⟨ha, hb⟩, h1, h2, h3, h4⟩ := ht
    have hbd := tap_index_bounds H W _ _ h1 h2 h3 h4
    have hlt : (tapCoord 3 y a * (W : ℤ) + tapCoord 3 x b).toNat < H * W := by
      have := hbd.2
      omega
    unfold tapTerm
    rw [laplacianCoefs_getD a b ha hb, List.getD_eq_getElem?_getD, List.getElem?_replicate,
      if_pos hlt]
    by_cases hab : ((a, b) : ℕ × ℕ) = (1, 1)
    · simp only [hab, if_true, Option.getD_some]; ring
    · simp only [hab, if_false, Option.getD_some]; ring
  rw [Finset.sum_congr rfl hterm, Finset.sum_sub_distrib, Finset.sum_ite_eq',
    if_pos (centre_mem_inBoundsTaps H W y x hy hx), Finset.sum_const, nsmul_eq_mul]
  ring

/-- The cell of the pixel `(y, x)` of the Laplacian response to a uniform image. -/
theorem laplacian_uniform_getElem (H W : ℕ) (c : ℚ) (y x : ℕ) (hy : y < H) (hx : x < W) :
    (filter_image initialize_3x3_laplacian (List.replicate (H * W) (Pixel.num c)) H W)[y * W + x]? =
      some (Pixel.num (c * (9 - ((inBoundsTaps 3 3 H W y x).card : ℚ)))) := by
  have h := filter_image_getElem 3 3 H W laplacianCoefs (List.replicate (H * W) c) rfl
    (by simp) y x hy hx
  rw [laplacian_uniform_sum H W c y x hy hx, List.map_replicate] at h
  exact h


/-! ## The reductions -/

theorem load_map_num_nat (F : List ℚ) (i : ℕ) (hi : i < F.length) :
    load (F.map Pixel.num) (i : ℤ) = Pixel.num (F.getD i 0) := by
  have h := load_map_num F (i : ℤ) (by positivity) (by exact_mod_cast hi)
  rwa [Int.toNat_natCast] at h

/-- A sum over the indices of a list is the sum of the list. -/
theorem sum_range_getD (F : List ℚ) (g : ℚ → ℚ) :
    ∑ i ∈ Finset.range F.length, g (F.getD i 0) = (F.map g).sum := by
  induction F using List.reverseRecOn with
  | nil => simp
  | append_singleton l a ih =>
    rw [List.length_append, List.length_singleton, Finset.sum_range_succ, List.map_append,
      List.sum_append, ← ih]
    congr 1
    · apply Finset.sum_congr rfl
      intro i hi
      rw [Finset.mem_range] at hi
      rw [List.getD_append _ _ _ _ hi]
    · simp [List.getD_eq_getElem?_getD]

theorem ofInt_ne_zero (length : ℤ) (h : 0 < length) : ((length : ℤ) : ℚ) ≠ 0 := by
  have : (0 : ℚ) < (length : ℚ) := by exact_mod_cast h
  exact ne_of_gt this

/-- `get_average` on a buffer of finite values of positive length. -/
theorem get_average_num (F : List ℚ) (length : ℤ) (h : 0 < length)
    (hl : length.toNat = F.length) :
    get_average (F.map Pixel.num) length = Pixel.num (F.sum / (length : ℚ)) := by
  unfold get_average
  rw [hl, foldl_range_sum _ (fun i => F.getD i 0) F.length 0]
  · rw [zero_add, sum_range_getD F (fun v => v)]
    simp only [List.map_id']
    exact Pixel.num_div_num _ _ (ofInt_ne_zero length h)
  · intro k hk q
    rw [load_map_num_nat F k hk]
    rfl

/-- `get_variance` on a buffer of finite values of positive length, for a finite average. -/
theorem get_variance_num (F : List ℚ) (length : ℤ) (m : ℚ) (h : 0 < length)
    (hl : length.toNat = F.length) :
    get_variance (F.map Pixel.num) length (Pixel.num m) =
      Pixel.num ((F.map (fun v => (v - m) ^ 2)).sum / (length : ℚ)) := by
  unfold get_variance
  rw [hl, foldl_range_sum _ (fun i => (F.getD i 0 - m) ^ 2) F.length 0]
  · rw [zero_add, sum_range_getD F (fun v => (v - m) ^ 2)]
    exact Pixel.num_div_num _ _ (ofInt_ne_zero length h)
  · intro k hk q
    rw [load_map_num_nat F k hk]
    simp only [Pixel.num_sub_num, Pixel.num_mul_num, Pixel.num_add_num, sq]

/-- The variance returned for an image whose filtered buffer is the finite buffer `F`. -/
theorem get_variance_sharpness_num (input : List Pixel) (height width : ℤ) (F : List ℚ)
    (hF : filter_image initialize_3x3_laplacian input height width = F.map Pixel.num)
    (hn : 0 < height * width) :
    get_variance_sharpness input height width =
      Pixel.num ((F.map (fun v => (v - F.sum / ((height * width : ℤ) : ℚ)) ^ 2)).sum /
        ((height * width : ℤ) : ℚ)) := by
  have hl : (height * width).toNat = F.length := by
    rw [← length_filter_image initialize_3x3_laplacian input height width, hF, List.length_map]
  unfold get_variance_sharpness
  simp only [hF]
  rw [get_average_num F _ hn hl, get_variance_num F _ _ hn hl]

theorem gt_threshold (v : ℚ) : Pixel.gt (Pixel.num v) THRESHOLD = decide (threshold < v) := rfl

/-- The state `(p_total, num_p)` of `sharpness_avg` after its loop, on a buffer of finite
values: the sum and the number of the values above the threshold. -/
theorem sharpness_avg_loop (F : List ℚ) :
    (List.range F.length).foldl
      (fun (st : Pixel × ℤ) (i : ℕ) =>
        if Pixel.gt (load (F.map Pixel.num) i) THRESHOLD then
          (st.1 + load (F.map Pixel.num) i, st.2 + 1) else st)
      (Pixel.num 0, 0) =
    (Pixel.num (F.filter (fun v => threshold < v)).sum,
      ((F.filter (fun v => threshold < v)).length : ℤ)) := by
  have hst := foldl_range_inv
    (fun (st : Pixel × ℤ) (i : ℕ) =>
      if Pixel.gt (load (F.map Pixel.num) i) THRESHOLD then
        (st.1 + load (F.map Pixel.num) i, st.2 + 1) else st)
    (fun k st => k ≤ F.length → st =
      (Pixel.num ((F.take k).filter (fun v => threshold < v)).sum,
        (((F.take k).filter (fun v => threshold < v)).length : ℤ)))
    F.length (Pixel.num 0, 0) (by intro _; simp)
    (by
      intro k hk st hst _
      rw [hst (Nat.le_of_lt hk)]
      beta_reduce
      rw [load_map_num_nat F k hk, gt_threshold, List.take_succ,
        List.getElem?_eq_getElem hk, List.getD_eq_getElem _ _ hk, List.filter_append]
      by_cases hv : threshold < F[k]
      · simp [hv]
      · simp [hv])
  have := hst (le_refl _)
  rwa [List.take_length] at this

/-- `sharpness_avg` on a buffer of finite values with at least one value above the
threshold. -/
theorem sharpness_avg_num (F : List ℚ) (length : ℤ) (hl : length.toNat = F.length)
    (hpos : ∃ v ∈ F, threshold < v) :
    sharpness_avg (F.map Pixel.num) length =
      Pixel.num ((F.filter (fun v => threshold < v)).sum /
        ((F.filter (fun v => threshold < v)).length : ℚ)) := by
  unfold sharpness_avg
  simp only [hl]
  rw [sharpness_avg_loop F]
  obtain ⟨v, hv, hlt⟩ := hpos
  have hmem : v ∈ F.filter (fun v => threshold < v) := by
    rw [List.mem_filter]
    exact ⟨hv, by simpa using hlt⟩
  have hne : (((F.filter (fun v => threshold < v)).length : ℤ) : ℚ) ≠ 0 := by
    have := List.length_pos_of_mem hmem
    have h2 : (0 : ℚ) < (((F.filter (fun v => threshold < v)).length : ℤ) : ℚ) := by
      exact_mod_cast this
    exact ne_of_gt h2
  have := Pixel.num_div_num (F.filter (fun v => threshold < v)).sum _ hne
  simpa [Pixel.ofInt] using this


/-! ## The variance of the response to a uniform image -/

/-- When `c = 0`, or when the image is at most 2x2 so that every pixel has the same number
`H * W` of in-bounds taps, the Laplacian response to the uniform image of value `c` is
uniform. -/
theorem laplacian_uniform_small (H W : ℕ) (c : ℚ) (h : c = 0 ∨ (H ≤ 2 ∧ W ≤ 2)) :
    filter_image initialize_3x3_laplacian (List.replicate (H * W) (Pixel.num c)) H W =
      (List.replicate (H * W) (c * (9 - ((H * W : ℕ) : ℚ)))).map Pixel.num := by
  have h1 := filter_image_num 3 3 H W laplacianCoefs (List.replicate (H * W) c) rfl (by simp)
  rw [List.map_replicate, ← laplacian_eq] at h1
  rw [h1]
  congr 1
  have h2 : List.replicate (H * W) (c * (9 - ((H * W : ℕ) : ℚ))) =
      (List.range (H * W)).map (fun _ => c * (9 - ((H * W : ℕ) : ℚ))) := by
    rw [List.map_const', List.length_range]
  rw [h2]
  apply List.map_congr_left
  intro i hi
  rw [List.mem_range] at hi
  have hW : 0 < W := by
    rcases Nat.eq_zero_or_pos W with h0 | h0
    · rw [h0, Nat.mul_zero] at hi; omega
    · exact h0
  have hy : i / W < H := Nat.div_lt_of_lt_mul (by rwa [Nat.mul_comm] at hi)
  have hx : i % W < W := Nat.mod_lt i hW
  rw [laplacian_uniform_sum H W c (i / W) (i % W) hy hx]
  rcases h with h0 | ⟨hH, hW2⟩
  · rw [h0, zero_mul, zero_mul]
  · rw [card_inBoundsTaps_three, axisTaps_small H _ hH hy, axisTaps_small W _ hW2 hx]

/-- The variance of a uniform filtered buffer is zero. -/
theorem get_variance_sharpness_uniform (input : List Pixel) (height width : ℤ) (v : ℚ)
    (hF : filter_image initialize_3x3_laplacian input height width =
      (List.replicate (height * width).toNat v).map Pixel.num)
    (hn : 0 < height * width) :
    get_variance_sharpness input height width = Pixel.num 0 := by
  rw [get_variance_sharpness_num input height width _ hF hn]
  congr 1
  have hne := ofInt_ne_zero (height * width) hn
  have hcast : (((height * width).toNat : ℕ) : ℚ) = ((height * width : ℤ) : ℚ) := by
    have : (((height * width).toNat : ℕ) : ℤ) = height * width :=
      Int.toNat_of_nonneg (le_of_lt hn)
    exact_mod_cast this
  have hm : (List.replicate (height * width).toNat v).sum / ((height * width : ℤ) : ℚ) = v := by
    rw [List.sum_replicate, nsmul_eq_mul, hcast, mul_comm, mul_div_assoc, div_self hne,
      mul_one]
  rw [hm]
  simp


/-- A sum of squared deviations that vanishes has all its deviations zero. -/
theorem sq_dev_sum_eq_zero (F : List ℚ) (m : ℚ)
    (h : (F.map (fun v => (v - m) ^ 2)).sum = 0) : ∀ v ∈ F, v = m := by
  have hnn : ∀ (G : List ℚ), 0 ≤ (G.map (fun v => (v - m) ^ 2)).sum := by
    intro G
    induction G with
    | nil => simp
    | cons a G ih =>
      rw [List.map_cons, List.sum_cons]
      have := sq_nonneg (a - m)
      linarith
  induction F with
  | nil => intro v hv; cases hv
  | cons a F ih =>
    rw [List.map_cons, List.sum_cons] at h
    have h1 := sq_nonneg (a - m)
    have h2 := hnn F
    have ha : (a - m) ^ 2 = 0 := by linarith
    have hF : (F.map (fun v => (v - m) ^ 2)).sum = 0 := by linarith
    intro v hv
    rcases List.mem_cons.mp hv with hv | hv
    · rw [hv]
      have := pow_eq_zero_iff (two_ne_zero) |>.mp ha
      linarith
    · exact ih hF v hv

/-- The Laplacian response to an image of finite samples is a buffer of finite values. -/
theorem filter_image_laplacian_num (H W : ℕ) (input : List ℚ) (hi : input.length = H * W) :
    ∃ F : List ℚ,
      filter_image initialize_3x3_laplacian (input.map Pixel.num) H W = F.map Pixel.num := by
  rw [laplacian_eq]
  exact ⟨_, filter_image_num 3 3 H W laplacianCoefs input rfl hi⟩


/-! ## Binary64 rounding of small integers -/

theorem log2Fuel_spec : ∀ (fuel n : ℕ), n ≤ fuel → 0 < n →
    2 ^ log2Fuel fuel n ≤ n ∧ n < 2 ^ (log2Fuel fuel n + 1) := by
  intro fuel
  induction fuel with
  | zero => intro n h1 h2; omega
  | succ fuel ih =>
    intro n h1 h2
    unfold log2Fuel
    by_cases h : 2 ≤ n
    · rw [if_pos h]
      have hd : n / 2 ≤ fuel := by omega
      have hp : 0 < n / 2 := by omega
      obtain ⟨a, b⟩ := ih (n / 2) hd hp
      constructor
      · rw [pow_succ]
        exact (Nat.le_div_iff_mul_le (by norm_num)).mp a
      · rw [pow_succ]
        exact (Nat.div_lt_iff_lt_mul (by norm_num)).mp b
    · rw [if_neg h]
      have : n = 1 := by omega
      subst this
      constructor <;> norm_num

theorem natLog2_spec (n : ℕ) (hn : 0 < n) : 2 ^ natLog2 n ≤ n ∧ n < 2 ^ (natLog2 n + 1) :=
  log2Fuel_spec n n (le_refl n) hn

theorem natLog2_one : natLog2 1 = 0 := by decide

theorem pow2_natCast (k : ℕ) : pow2 (k : ℤ) = ((2 ^ k : ℕ) : ℚ) := by
  unfold pow2
  rw [if_pos (by positivity), Int.toNat_natCast]

theorem pow2_pos (e : ℤ) : 0 < pow2 e := by
  unfold pow2
  split_ifs <;> positivity

/-- The spacing of the binary64 numbers around an integer below `2 ^ 53` is at most 1. -/
theorem pow2_sub_52 (k : ℕ) (hk : k ≤ 52) :
    pow2 ((k : ℤ) - 52) = 1 / ((2 ^ (52 - k) : ℕ) : ℚ) := by
  unfold pow2
  by_cases h : k = 52
  · subst h
    norm_num
  · have hlt : ¬ (0 : ℤ) ≤ (k : ℤ) - 52 := by omega
    rw [if_neg hlt]
    have : (-((k : ℤ) - 52)).toNat = 52 - k := by omega
    rw [this]

theorem abs_intCast_rat (n : ℤ) : |(n : ℚ)| = ((n.natAbs : ℕ) : ℚ) := by
  rw [Nat.cast_natAbs, Int.cast_abs]

theorem roundHalfEven_intCast (z : ℤ) : roundHalfEven (z : ℚ) = z := by
  unfold roundHalfEven
  simp only [Int.floor_intCast, sub_self]
  rw [if_pos (by norm_num)]

theorem abs_intCast_lt_pow2 (n : ℤ) (hn : n.natAbs < 2 ^ 53) (E : ℕ) (hE : 53 < E) :
    ¬ pow2 (E : ℤ) ≤ |(n : ℚ)| := by
  rw [abs_intCast_rat, not_le, pow2_natCast]
  exact Nat.cast_lt.mpr (lt_trans hn (Nat.pow_lt_pow_right (by decide) hE))

/-- An integer below `2 ^ 53` in absolute value is a binary64 number: rounding keeps it. -/
theorem roundDouble_intCast (n : ℤ) (hn : n.natAbs < 2 ^ 53) :
    roundDouble (n : ℚ) = Pixel.num (n : ℚ) := by
  unfold roundDouble
  by_cases h0 : n = 0
  · subst h0
    simp
  · have hq : ¬ (n : ℚ) = 0 := by exact_mod_cast h0
    rw [if_neg hq]
    have hN : 0 < n.natAbs := Int.natAbs_pos.mpr h0
    obtain ⟨hlo, hhi⟩ := natLog2_spec n.natAbs hN
    have hk : natLog2 n.natAbs ≤ 52 := by
      by_contra hc
      have h53 : 53 ≤ natLog2 n.natAbs := by omega
      have : 2 ^ 53 ≤ 2 ^ natLog2 n.natAbs := Nat.pow_le_pow_right (by norm_num) h53
      omega
    have hfl : floorLog2 |(n : ℚ)| = (natLog2 n.natAbs : ℤ) := by
      unfold floorLog2
      rw [abs_intCast_rat, Rat.num_natCast, Rat.den_natCast, Int.natAbs_ofNat, natLog2_one]
      simp only [Nat.cast_zero, sub_zero]
      rw [pow2_natCast, if_pos (by exact_mod_cast hlo)]
    simp only [hfl]
    have hmax : max (natLog2 n.natAbs : ℤ) (-1022) = (natLog2 n.natAbs : ℤ) := by
      apply max_eq_left
      omega
    rw [hmax, pow2_sub_52 _ hk]
    have hdiv : (n : ℚ) / (1 / ((2 ^ (52 - natLog2 n.natAbs) : ℕ) : ℚ)) =
        ((n * (2 ^ (52 - natLog2 n.natAbs) : ℕ) : ℤ) : ℚ) := by
      push_cast
      field_simp
    rw [hdiv, roundHalfEven_intCast]
    have hback : ((n * (2 ^ (52 - natLog2 n.natAbs) : ℕ) : ℤ) : ℚ) *
        (1 / ((2 ^ (52 - natLog2 n.natAbs) : ℕ) : ℚ)) = (n : ℚ) := by
      push_cast
      field_simp
    rw [hback]
    have hsmall : ¬ pow2 1024 ≤ |(n : ℚ)| := abs_intCast_lt_pow2 n hn 1024 (by decide)
    rw [if_neg hsmall]

theorem roundDouble_intCast_of_abs (n : ℤ) (hn : |n| < 2 ^ 53) :
    roundDouble (n : ℚ) = Pixel.num (n : ℚ) := by
  apply roundDouble_intCast
  have h : ((n.natAbs : ℕ) : ℤ) < ((2 ^ 53 : ℕ) : ℤ) := by
    rw [Int.natCast_natAbs]
    exact_mod_cast hn
  exact_mod_cast h

theorem F64.add_intCast (a b : ℤ) (h : |a + b| < 2 ^ 53) :
    F64.add (Pixel.num (a : ℚ)) (Pixel.num (b : ℚ)) = Pixel.num ((a + b : ℤ) : ℚ) := by
  unfold F64.add
  rw [Pixel.num_add_num, ← Int.cast_add]
  exact roundDouble_intCast_of_abs _ h

theorem F64.sub_intCast (a b : ℤ) (h : |a - b| < 2 ^ 53) :
    F64.sub (Pixel.num (a : ℚ)) (Pixel.num (b : ℚ)) = Pixel.num ((a - b : ℤ) : ℚ) := by
  unfold F64.sub
  rw [Pixel.num_sub_num, ← Int.cast_sub]
  exact roundDouble_intCast_of_abs _ h

theorem F64.mul_intCast (a b : ℤ) (h : |a * b| < 2 ^ 53) :
    F64.mul (Pixel.num (a : ℚ)) (Pixel.num (b : ℚ)) = Pixel.num ((a * b : ℤ) : ℚ) := by
  unfold F64.mul
  rw [Pixel.num_mul_num, ← Int.cast_mul]
  exact roundDouble_intCast_of_abs _ h

/-- The binary64 quotient of the integers `n * v` and `n` is `v`. -/
theorem F64.div_intCast (n v : ℤ) (hn : n ≠ 0) (h : |v| < 2 ^ 53) :
    F64.div (Pixel.num ((n * v : ℤ) : ℚ)) (Pixel.ofInt n) = Pixel.num (v : ℚ) := by
  unfold F64.div Pixel.ofInt
  have hq : ((n : ℤ) : ℚ) ≠ 0 := by exact_mod_cast hn
  rw [Pixel.num_div_num _ _ hq]
  have : ((n * v : ℤ) : ℚ) / (n : ℚ) = (v : ℚ) := by
    push_cast
    field_simp
  rw [this]
  exact roundDouble_intCast_of_abs _ h

/-! ## The Laplacian on images of small integers, in binary64 -/

/-- Loop invariants relating two loops over the same range. -/
theorem foldl_range_rel {α β : Type} (f : α → ℕ → α) (g : β → ℕ → β)
    (R : ℕ → α → β → Prop) (n : ℕ) (a0 : α) (b0 : β) (h0 : R 0 a0 b0)
    (hstep : ∀ k, k < n → ∀ a b, R k a b → R (k + 1) (f a k) (g b k)) :
    R n ((List.range n).foldl f a0) ((List.range n).foldl g b0) := by
  induction n with
  | zero => simpa using h0
  | succ n ih =>
    rw [List.range_succ, List.foldl_append, List.foldl_append]
    simp only [List.foldl_cons, List.foldl_nil]
    exact hstep n (Nat.lt_succ_self n) _ _
      (ih (fun k hk a b hab => hstep k (Nat.lt_succ_of_lt hk) a b hab))

theorem load_laplacian (fy fx : ℕ) (hfy : fy < 3) (hfx : fx < 3) :
    ∃ m : ℤ, load initialize_3x3_laplacian.coefs ((fy : ℤ) * 3 + (fx : ℤ)) =
      Pixel.num (m : ℚ) ∧ |m| ≤ 8 := by
  interval_cases fy <;> interval_cases fx
  · exact ⟨-1, by decide!, by decide⟩
  · exact ⟨-1, by decide!, by decide⟩
  · exact ⟨-1, by decide!, by decide⟩
  · exact ⟨-1, by decide!, by decide⟩
  · exact ⟨8, by decide!, by decide⟩
  · exact ⟨-1, by decide!, by decide⟩
  · exact ⟨-1, by decide!, by decide⟩
  · exact ⟨-1, by decide!, by decide⟩
  · exact ⟨-1, by decide!, by decide⟩

theorem getD_abs_le (l : List ℤ) (B : ℤ) (hB : 0 ≤ B) (hl : ∀ n ∈ l, |n| ≤ B) (i : ℕ) :
    |l.getD i 0| ≤ B := by
  by_cases hi : i < l.length
  · rw [List.getD_eq_getElem _ _ hi]
    exact hl _ (List.getElem_mem hi)
  · rw [List.getD_eq_default _ _ (Nat.le_of_not_lt hi)]
    simpa using hB

/-- A read inside an image of integers. -/
theorem load_intImage (l : List ℤ) (B : ℤ) (hB : 0 ≤ B) (hl : ∀ n ∈ l, |n| ≤ B) (i : ℤ)
    (h0 : 0 ≤ i) (h1 : i < l.length) :
    ∃ n : ℤ, load ((l.map (fun n : ℤ => (n : ℚ))).map Pixel.num) i = Pixel.num (n : ℚ) ∧
      |n| ≤ B := by
  refine ⟨l.getD i.toNat 0, ?_, getD_abs_le l B hB hl _⟩
  rw [load_map_num _ i h0 (by simpa using h1)]
  congr 1
  have := List.getD_map l (0 : ℤ) (n := i.toNat) (fun n : ℤ => (n : ℚ))
  simpa using this

/-- One tap of the Laplacian on an image of integers: the binary64 product and sum are the
exact ones, as long as the running sum stays an integer below `2 ^ 53`. -/
theorem tap_step_int (z n m B : ℤ) (c : ℕ) (hc : c + 1 ≤ 9) (hB0 : 0 ≤ B)
    (hB : 72 * B < 2 ^ 53) (hz : |z| ≤ (c : ℤ) * (8 * B)) (hn : |n| ≤ B) (hm : |m| ≤ 8) :
    F64.add (Pixel.num (z : ℚ)) (F64.mul (Pixel.num (n : ℚ)) (Pixel.num (m : ℚ))) =
        Pixel.num ((z + n * m : ℤ) : ℚ) ∧
      Pixel.num (z : ℚ) + Pixel.num (n : ℚ) * Pixel.num (m : ℚ) =
        Pixel.num ((z + n * m : ℤ) : ℚ) ∧
      |z + n * m| ≤ ((c + 1 : ℕ) : ℤ) * (8 * B) := by
  have hnm : |n * m| ≤ 8 * B := by
    rw [abs_mul]
    calc |n| * |m| ≤ B * 8 := mul_le_mul hn hm (abs_nonneg m) hB0
      _ = 8 * B := by ring
  have hsum : |z + n * m| ≤ ((c + 1 : ℕ) : ℤ) * (8 * B) := by
    calc |z + n * m| ≤ |z| + |n * m| := abs_add z (n * m)
      _ ≤ (c : ℤ) * (8 * B) + 8 * B := add_le_add hz hnm
      _ = ((c + 1 : ℕ) : ℤ) * (8 * B) := by push_cast; ring
  have hc9 : ((c + 1 : ℕ) : ℤ) * (8 * B) ≤ 72 * B := by
    have h1 : ((c + 1 : ℕ) : ℤ) ≤ 9 := by exact_mod_cast hc
    have h2 : (0 : ℤ) ≤ 8 * B := by linarith
    calc ((c + 1 : ℕ) : ℤ) * (8 * B) ≤ 9 * (8 * B) := mul_le_mul_of_nonneg_right h1 h2
      _ = 72 * B := by ring
  refine ⟨?_, ?_, hsum⟩
  · rw [F64.mul_intCast n m (by linarith), F64.add_intCast z (n * m) (by linarith)]
  · rw [Pixel.num_mul_num, Pixel.num_add_num]
    push_cast
    rfl

/-- On an image of integers bounded by `B` with `72 * B < 2 ^ 53`, the binary64 dot product
of the Laplacian at a pixel is the exact one: no operation rounds. -/
theorem F64_dotp_laplacian_int (l : List ℤ) (H W : ℕ) (B : ℤ) (hB0 : 0 ≤ B)
    (hB : 72 * B < 2 ^ 53) (hlen : l.length = H * W) (hl : ∀ n ∈ l, |n| ≤ B) (y x : ℕ) :
    F64.filter_image.dotp initialize_3x3_laplacian
        ((l.map (fun n : ℤ => (n : ℚ))).map Pixel.num) H W y x =
      filter_image.dotp initialize_3x3_laplacian
        ((l.map (fun n : ℤ => (n : ℚ))).map Pixel.num) H W y x := by
  have key : ∃ z : ℤ,
      F64.filter_image.dotp initialize_3x3_laplacian
        ((l.map (fun n : ℤ => (n : ℚ))).map Pixel.num) H W y x = Pixel.num (z : ℚ) ∧
      filter_image.dotp initialize_3x3_laplacian
        ((l.map (fun n : ℤ => (n : ℚ))).map Pixel.num) H W y x = Pixel.num (z : ℚ) ∧
      |z| ≤ ((3 * 3 : ℕ) : ℤ) * (8 * B) := by
    unfold F64.filter_image.dotp filter_image.dotp
    have h3 : initialize_3x3_laplacian.height = 3 := rfl
    have h3' : initialize_3x3_laplacian.width = 3 := rfl
    have ht : Int.tdiv 3 2 = 1 := rfl
    have hn3 : (3 : ℤ).toNat = 3 := rfl
    simp only [h3, h3', ht, hn3]
    refine foldl_range_rel _ _
      (fun k aF aE => ∃ z : ℤ, aF = Pixel.num (z : ℚ) ∧ aE = Pixel.num (z : ℚ) ∧
        |z| ≤ ((k * 3 : ℕ) : ℤ) * (8 * B)) 3 _ _ ⟨0, by simp, by simp, by simp⟩ ?_
    intro fy hfy aF aE hR
    have hin := foldl_range_rel
      (fun (dotp : Pixel) (fx : ℕ) =>
        if (y : ℤ) + (fy : ℤ) - 1 ≥ 0 ∧ (y : ℤ) + (fy : ℤ) - 1 < (H : ℤ) ∧
            (x : ℤ) + (fx : ℤ) - 1 ≥ 0 ∧ (x : ℤ) + (fx : ℤ) - 1 < (W : ℤ) then
          F64.add dotp
            (F64.mul
              (load ((l.map (fun n : ℤ => (n : ℚ))).map Pixel.num)
                (((y : ℤ) + (fy : ℤ) - 1) * (W : ℤ) + ((x : ℤ) + (fx : ℤ) - 1)))
              (load initialize_3x3_laplacian.coefs ((fy : ℤ) * 3 + (fx : ℤ))))
        else dotp)
      (fun (dotp : Pixel) (fx : ℕ) =>
        if (y : ℤ) + (fy : ℤ) - 1 ≥ 0 ∧ (y : ℤ) + (fy : ℤ) - 1 < (H : ℤ) ∧
            (x : ℤ) + (fx : ℤ) - 1 ≥ 0 ∧ (x : ℤ) + (fx : ℤ) - 1 < (W : ℤ) then
          dotp +
            load ((l.map (fun n : ℤ => (n : ℚ))).map Pixel.num)
                (((y : ℤ) + (fy : ℤ) - 1) * (W : ℤ) + ((x : ℤ) + (fx : ℤ) - 1)) *
              load initialize_3x3_laplacian.coefs ((fy : ℤ) * 3 + (fx : ℤ))
        else dotp)
      (fun k aF aE => ∃ z : ℤ, aF = Pixel.num (z : ℚ) ∧ aE = Pixel.num (z : ℚ) ∧
        |z| ≤ ((fy * 3 + k : ℕ) : ℤ) * (8 * B)) 3 aF aE
      (by simpa using hR)
      (by
        intro fx hfx bF bE hRin
        obtain ⟨z, hzF, hzE, hz⟩ := hRin
        beta_reduce
        by_cases hg : (y : ℤ) + (fy : ℤ) - 1 ≥ 0 ∧ (y : ℤ) + (fy : ℤ) - 1 < (H : ℤ) ∧
            (x : ℤ) + (fx : ℤ) - 1 ≥ 0 ∧ (x : ℤ) + (fx : ℤ) - 1 < (W : ℤ)
        · rw [if_pos hg, if_pos hg]
          obtain ⟨g1, g2, g3, g4⟩ := hg
          have hb := tap_index_bounds H W _ _ g1 g2 g3 g4
          obtain ⟨n, hn, hnB⟩ := load_intImage l B hB0 hl _ hb.1 (by rw [hlen]; exact hb.2)
          obtain ⟨m, hm, hm8⟩ := load_laplacian fy fx hfy hfx
          rw [hn, hm, hzF, hzE]
          obtain ⟨e1, e2, e3⟩ := tap_step_int z n m B (fy * 3 + fx) (by omega) hB0 hB hz hnB hm8
          exact ⟨z + n * m, e1, e2, by simpa [Nat.add_assoc] using e3⟩
        · rw [if_neg hg, if_neg hg]
          refine ⟨z, hzF, hzE, le_trans hz ?_⟩
          have h2 : (0 : ℤ) ≤ 8 * B := by linarith
          apply mul_le_mul_of_nonneg_right _ h2
          push_cast
          linarith)
    obtain ⟨z, a, b, c⟩ := hin
    refine ⟨z, a, b, ?_⟩
    have : (fy + 1) * 3 = fy * 3 + 3 := by ring
    rw [this]
    exact c
  obtain ⟨z, a, b, _⟩ := key
  rw [a, b]

/-- On an image of integers bounded by `B` with `72 * B < 2 ^ 53`, the binary64 buffer
returned by `filter_image` with the Laplacian is the exact one. -/
theorem F64_filter_image_laplacian_int (l : List ℤ) (H W : ℕ) (B : ℤ) (hB0 : 0 ≤ B)
    (hB : 72 * B < 2 ^ 53) (hlen : l.length = H * W) (hl : ∀ n ∈ l, |n| ≤ B) :
    F64.filter_image initialize_3x3_laplacian
        ((l.map (fun n : ℤ => (n : ℚ))).map Pixel.num) H W =
      filter_image initialize_3x3_laplacian
        ((l.map (fun n : ℤ => (n : ℚ))).map Pixel.num) H W := by
  unfold F64.filter_image filter_image
  apply List.foldl_ext
  intro o y _
  apply List.foldl_ext
  intro o x _
  rw [F64_dotp_laplacian_int l H W B hB0 hB hlen hl y x]

/-- The uniform image of the integer value `k`, as a buffer. -/
theorem uniform_int_image (n : ℕ) (k : ℤ) :
    List.replicate n (Pixel.num (k : ℚ)) =
      ((List.replicate n k).map (fun n : ℤ => (n : ℚ))).map Pixel.num := by
  rw [List.map_replicate, List.map_replicate]

/-- On a uniform image of an integer value `k` with `|k| ≤ 2 ^ 46`, the binary64 buffer
returned by `filter_image` with the Laplacian is the exact one. -/
theorem F64_filter_image_laplacian_uniform (H W : ℕ) (k : ℤ) (hk : |k| ≤ 2 ^ 46) :
    F64.filter_image initialize_3x3_laplacian (List.replicate (H * W) (Pixel.num (k : ℚ))) H W =
      filter_image initialize_3x3_laplacian (List.replicate (H * W) (Pixel.num (k : ℚ))) H W := by
  rw [uniform_int_image]
  apply F64_filter_image_laplacian_int _ H W (2 ^ 46) (by norm_num) (by norm_num) (by simp)
  intro n hn
  rw [List.eq_of_mem_replicate hn]
  exact hk

theorem load_replicate (n : ℕ) (p : Pixel) (j : ℕ) (hj : j < n) :
    load (List.replicate n p) (j : ℤ) = p := by
  rw [load_natCast, List.getD_eq_getElem?_getD, List.getElem?_replicate, if_pos hj]
  rfl

/-- The binary64 mean of `n` cells equal to the integer `v` is `v`, when `n * |v|` stays
below `2 ^ 53`. -/
theorem F64_get_average_uniform_int (n : ℕ) (hn : 0 < n) (v : ℤ)
    (hv : (n : ℤ) * |v| < 2 ^ 53) :
    F64.get_average (List.replicate n (Pixel.num (v : ℚ))) n = Pixel.num (v : ℚ) := by
  unfold F64.get_average
  simp only [Int.toNat_natCast]
  have hacc := foldl_range_inv
    (fun (accumulator : Pixel) (i : ℕ) =>
      F64.add accumulator (load (List.replicate n (Pixel.num (v : ℚ))) (i : ℤ)))
    (fun j acc => j ≤ n → acc = Pixel.num (((j : ℤ) * v : ℤ) : ℚ)) n (Pixel.num 0)
    (by intro _; simp)
    (by
      intro j hj acc hacc _
      rw [hacc (Nat.le_of_lt hj)]
      beta_reduce
      rw [load_replicate n _ j hj]
      have hb : |(j : ℤ) * v + v| < 2 ^ 53 := by
        have h1 : (j : ℤ) * v + v = ((j + 1 : ℕ) : ℤ) * v := by push_cast; ring
        rw [h1, abs_mul, Nat.abs_cast]
        have h2 : ((j + 1 : ℕ) : ℤ) ≤ (n : ℤ) := by exact_mod_cast hj
        calc ((j + 1 : ℕ) : ℤ) * |v| ≤ (n : ℤ) * |v| :=
              mul_le_mul_of_nonneg_right h2 (abs_nonneg v)
          _ < 2 ^ 53 := hv
      rw [F64.add_intCast _ _ hb]
      congr 2
      push_cast
      ring)
  rw [hacc (le_refl n)]
  have hv2 : |v| < 2 ^ 53 := by
    have h1 : (1 : ℤ) ≤ (n : ℤ) := by exact_mod_cast hn
    calc |v| = 1 * |v| := by ring
      _ ≤ (n : ℤ) * |v| := mul_le_mul_of_nonneg_right h1 (abs_nonneg v)
      _ < 2 ^ 53 := hv
  exact F64.div_intCast (n : ℤ) v (by exact_mod_cast (Nat.pos_iff_ne_zero.mp hn)) hv2

theorem roundDouble_zero : roundDouble 0 = Pixel.num 0 := by
  unfold roundDouble
  rw [if_pos rfl]

/-- The binary64 variance of `n` cells equal to `v` about the mean `v` is 0. -/
theorem F64_get_variance_uniform (n : ℕ) (hn : 0 < n) (v : ℚ) :
    F64.get_variance (List.replicate n (Pixel.num v)) n (Pixel.num v) = Pixel.num 0 := by
  unfold F64.get_variance
  simp only [Int.toNat_natCast]
  have hacc := foldl_range_inv
    (fun (accumulator : Pixel) (i : ℕ) =>
      F64.add accumulator
        (F64.mul (F64.sub (load (List.replicate n (Pixel.num v)) (i : ℤ)) (Pixel.num v))
          (F64.sub (load (List.replicate n (Pixel.num v)) (i : ℤ)) (Pixel.num v))))
    (fun _ acc => acc = Pixel.num 0) n (Pixel.num 0) rfl
    (by
      intro j hj acc hacc
      rw [hacc]
      beta_reduce
      rw [load_replicate n _ j hj]
      have hs : F64.sub (Pixel.num v) (Pixel.num v) = Pixel.num 0 := by
        unfold F64.sub
        rw [Pixel.num_sub_num, sub_self]
        exact roundDouble_zero
      have hm : F64.mul (Pixel.num 0) (Pixel.num 0) = Pixel.num 0 := by
        unfold F64.mul
        rw [Pixel.num_mul_num, mul_zero]
        exact roundDouble_zero
      have ha : F64.add (Pixel.num 0) (Pixel.num 0) = Pixel.num 0 := by
        unfold F64.add
        rw [Pixel.num_add_num, add_zero]
        exact roundDouble_zero
      rw [hs, hm, ha])
  rw [hacc]
  unfold F64.div Pixel.ofInt
  have hq : (((n : ℕ) : ℤ) : ℚ) ≠ 0 := by
    have : (0 : ℚ) < (((n : ℕ) : ℤ) : ℚ) := by exact_mod_cast hn
    exact ne_of_gt this
  rw [Pixel.num_div_num _ _ hq, zero_div]
  exact roundDouble_zero

/-- In binary64, the variance returned for a uniform image of an integer value `k` with
`|k| ≤ 2 ^ 46` is 0 when `k = 0` or the image is at most 2x2: on these images no operation
rounds. -/
theorem F64_variance_uniform_int (H W : ℕ) (k : ℤ) (hH : 1 ≤ H) (hW : 1 ≤ W)
    (hk : |k| ≤ 2 ^ 46) (h : k = 0 ∨ (H ≤ 2 ∧ W ≤ 2)) :
    F64.get_variance_sharpness (List.replicate (H * W) (Pixel.num (k : ℚ))) H W =
      Pixel.num 0 := by
  have hn : 0 < H * W := Nat.mul_pos hH hW
  have hq : (k : ℚ) = 0 ∨ (H ≤ 2 ∧ W ≤ 2) := by
    rcases h with h | h
    · left; exact_mod_cast h
    · right; exact h
  have hF := laplacian_uniform_small H W (k : ℚ) hq
  have hval : (k : ℚ) * (9 - ((H * W : ℕ) : ℚ)) = ((k * (9 - ((H * W : ℕ) : ℤ)) : ℤ) : ℚ) := by
    push_cast
    ring
  rw [hval, List.map_replicate] at hF
  unfold F64.get_variance_sharpness
  simp only [F64_filter_image_laplacian_uniform H W k hk, hF]
  have hcast : ((H : ℤ) * (W : ℤ)) = ((H * W : ℕ) : ℤ) := by push_cast; ring
  rw [hcast]
  have hbound : ((H * W : ℕ) : ℤ) * |k * (9 - ((H * W : ℕ) : ℤ))| < 2 ^ 53 := by
    rcases h with h | ⟨h1, h2⟩
    · rw [h]
      simp
    · have hHW : H * W ≤ 4 := by
        calc H * W ≤ 2 * 2 := Nat.mul_le_mul h1 h2
          _ = 4 := rfl
      have hz : (1 : ℤ) ≤ ((H * W : ℕ) : ℤ) ∧ ((H * W : ℕ) : ℤ) ≤ 4 := by
        constructor
        · exact_mod_cast hn
        · exact_mod_cast hHW
      have h9 : |(9 - ((H * W : ℕ) : ℤ))| ≤ 8 := by
        rw [abs_le]
        constructor <;> linarith [hz.1, hz.2]
      rw [abs_mul]
      have hk0 := abs_nonneg k
      have ht : |k| * |(9 - ((H * W : ℕ) : ℤ))| ≤ 2 ^ 46 * 8 :=
        mul_le_mul hk h9 (abs_nonneg _) (by norm_num)
      calc ((H * W : ℕ) : ℤ) * (|k| * |(9 - ((H * W : ℕ) : ℤ))|)
            ≤ 4 * (2 ^ 46 * 8) :=
              mul_le_mul hz.2 ht (mul_nonneg hk0 (abs_nonneg _)) (by norm_num)
        _ < 2 ^ 53 := by norm_num
  rw [F64_get_average_uniform_int (H * W) hn _ hbound]
  exact F64_get_variance_uniform (H * W) hn _

/-! ## Signs and lower bounds under binary64 rounding -/

theorem pow2_eq_zpow (e : ℤ) : pow2 e = (2 : ℚ) ^ e := by
  unfold pow2
  split_ifs with h
  · obtain ⟨n, rfl⟩ := Int.eq_ofNat_of_zero_le h
    simp
  · have he : e = -(((-e).toNat : ℕ) : ℤ) := by omega
    rw [he]
    simp only [neg_neg, Int.toNat_natCast, zpow_neg, zpow_natCast]
    push_cast
    rw [one_div]

theorem roundHalfEven_ge (x : ℚ) (m : ℤ) (h : (m : ℚ) ≤ x) : m ≤ roundHalfEven x := by
  have hf : m ≤ ⌊x⌋ := Int.le_floor.mpr h
  unfold roundHalfEven
  simp only
  split_ifs <;> omega

/-- The exponent found by `floorLog2` is not above the binary logarithm. -/
theorem floorLog2_le (q : ℚ) (hq : 0 < q) : pow2 (floorLog2 q) ≤ q := by
  unfold floorLog2
  simp only
  split_ifs with h
  · exact h
  · have hnum : 0 < q.num := Rat.num_pos.mpr hq
    have hN : 0 < q.num.natAbs := Int.natAbs_pos.mpr (ne_of_gt hnum)
    obtain ⟨ha, _⟩ := natLog2_spec q.num.natAbs hN
    obtain ⟨_, hb⟩ := natLog2_spec q.den q.den_pos
    rw [pow2_eq_zpow]
    have hexp : ((natLog2 q.num.natAbs : ℤ) - (natLog2 q.den : ℤ) - 1) =
        (natLog2 q.num.natAbs : ℤ) - ((natLog2 q.den + 1 : ℕ) : ℤ) := by
      push_cast
      ring
    rw [hexp, zpow_sub₀ (two_ne_zero), zpow_natCast, zpow_natCast]
    have hden : (0 : ℚ) < (q.den : ℚ) := by exact_mod_cast q.den_pos
    have hqd : q = (q.num : ℚ) / (q.den : ℚ) := (Rat.num_div_den q).symm
    have hnumq : ((2 : ℚ) ^ natLog2 q.num.natAbs) ≤ (q.num : ℚ) := by
      have h1 : ((2 ^ natLog2 q.num.natAbs : ℕ) : ℤ) ≤ q.num := by
        have := Int.natAbs_of_nonneg (le_of_lt hnum)
        omega
      have h2 : (((2 ^ natLog2 q.num.natAbs : ℕ) : ℤ) : ℚ) ≤ (q.num : ℚ) := by
        exact_mod_cast h1
      simpa using h2
    have hdenq : (q.den : ℚ) ≤ (2 : ℚ) ^ (natLog2 q.den + 1) := by
      have h2 : ((q.den : ℕ) : ℚ) ≤ ((2 ^ (natLog2 q.den + 1) : ℕ) : ℚ) := by
        exact_mod_cast le_of_lt hb
      simpa using h2
    have hp : (0 : ℚ) < (2 : ℚ) ^ (natLog2 q.den + 1) := by positivity
    have hn0 : (0 : ℚ) ≤ (q.num : ℚ) := by exact_mod_cast le_of_lt hnum
    have key : (2 : ℚ) ^ natLog2 q.num.natAbs / (2 : ℚ) ^ (natLog2 q.den + 1) ≤
        (q.num : ℚ) / (q.den : ℚ) := by
      rw [div_le_div_iff₀ hp hden]
      calc (2 : ℚ) ^ natLog2 q.num.natAbs * (q.den : ℚ)
          ≤ (q.num : ℚ) * (q.den : ℚ) := mul_le_mul_of_nonneg_right hnumq (le_of_lt hden)
        _ ≤ (q.num : ℚ) * (2 : ℚ) ^ (natLog2 q.den + 1) :=
            mul_le_mul_of_nonneg_left hdenq hn0
    exact le_of_le_of_eq key hqd.symm

/-- A value that is not negative: NaN, `+∞`, or a finite value `≥ 0`. -/
theorem roundDouble_nonneg (q : ℚ) (hq : 0 ≤ q) :
    roundDouble q = Pixel.inf false ∨ ∃ r : ℚ, 0 ≤ r ∧ roundDouble q = Pixel.num r := by
  unfold roundDouble
  by_cases h0 : q = 0
  · rw [if_pos h0]
    exact Or.inr ⟨0, le_refl 0, rfl⟩
  · rw [if_neg h0]
    simp only
    have hu := pow2_pos (max (floorLog2 |q|) (-1022) - 52)
    have hx : ((0 : ℤ) : ℚ) ≤ q / pow2 (max (floorLog2 |q|) (-1022) - 52) := by
      simpa using div_nonneg hq (le_of_lt hu)
    have hr := roundHalfEven_ge _ 0 hx
    split_ifs with hov
    · left
      have : ¬ q < 0 := not_lt.mpr hq
      simp [this]
    · right
      refine ⟨_, ?_, rfl⟩
      have h1 : (0 : ℚ) ≤ ((roundHalfEven (q / pow2 (max (floorLog2 |q|) (-1022) - 52)) : ℤ) : ℚ) := by
        exact_mod_cast hr
      exact mul_nonneg h1 (le_of_lt hu)

/-- Rounding does not cross a power of two of the normal range from above. -/
theorem roundDouble_ge_pow2 (q : ℚ) (k : ℤ) (hk : -1022 ≤ k) (h : pow2 k ≤ q) :
    roundDouble q = Pixel.inf false ∨ ∃ r : ℚ, pow2 k ≤ r ∧ roundDouble q = Pixel.num r := by
  have hq : 0 < q := lt_of_lt_of_le (pow2_pos k) h
  unfold roundDouble
  rw [if_neg (ne_of_gt hq), abs_of_pos hq]
  simp only
  have hE := floorLog2_le q hq
  obtain ⟨e, he⟩ : ∃ e : ℤ, e = max (floorLog2 q) (-1022) := ⟨_, rfl⟩
  rw [← he]
  have hu := pow2_pos (e - 52)
  -- the power of two `2 ^ j` with `j = max k e` lies between `2 ^ k` and `q`
  obtain ⟨j, hj⟩ : ∃ j : ℤ, j = max k e := ⟨_, rfl⟩
  have hjq : pow2 j ≤ q := by
    rcases le_total k e with hke | hke
    · rw [hj, max_eq_right hke]
      rcases le_total (floorLog2 q) (-1022) with h1 | h1
      · rw [max_eq_right h1] at he
        have : k = e := by omega
        rw [← this]
        exact h
      · rw [max_eq_left h1] at he
        rw [he]
        exact hE
    · rw [hj, max_eq_left hke]
      exact h
  have hkj : pow2 k ≤ pow2 j := by
    rw [pow2_eq_zpow, pow2_eq_zpow]
    exact zpow_le_zpow_right₀ (by norm_num) (by rw [hj]; exact le_max_left k e)
  have hje : 0 ≤ j - e + 52 := by
    have : e ≤ j := by rw [hj]; exact le_max_right k e
    omega
  have hm : (((2 ^ (j - e + 52).toNat : ℕ) : ℤ) : ℚ) * pow2 (e - 52) = pow2 j := by
    rw [pow2_eq_zpow, pow2_eq_zpow]
    have h1 : (((2 ^ (j - e + 52).toNat : ℕ) : ℤ) : ℚ) = (2 : ℚ) ^ (j - e + 52) := by
      obtain ⟨n, hn⟩ := Int.eq_ofNat_of_zero_le hje
      rw [hn]
      simp
    rw [h1, ← zpow_add₀ (two_ne_zero)]
    congr 1
    ring
  have hx : (((2 ^ (j - e + 52).toNat : ℕ) : ℤ) : ℚ) ≤ q / pow2 (e - 52) := by
    rw [le_div_iff₀ hu, hm]
    exact hjq
  have hr := roundHalfEven_ge _ _ hx
  have hr2 : pow2 j ≤ ((roundHalfEven (q / pow2 (e - 52)) : ℤ) : ℚ) * pow2 (e - 52) := by
    rw [← hm]
    apply mul_le_mul_of_nonneg_right _ (le_of_lt hu)
    exact_mod_cast hr
  split_ifs with hov
  · left
    have : ¬ q < 0 := not_lt.mpr (le_of_lt hq)
    simp [this]
  · right
    exact ⟨_, le_trans hkj hr2, rfl⟩

/-! ## The reductions in binary64 -/

theorem F64.mul_self_notNeg (d : Pixel) :
    F64.mul d d = Pixel.nan ∨ F64.mul d d = Pixel.inf false ∨
      ∃ v : ℚ, 0 ≤ v ∧ F64.mul d d = Pixel.num v := by
  cases d with
  | num a =>
    have h : F64.mul (Pixel.num a) (Pixel.num a) = roundDouble (a * a) := rfl
    rw [h]
    rcases roundDouble_nonneg (a * a) (mul_self_nonneg a) with h | h
    · exact Or.inr (Or.inl h)
    · exact Or.inr (Or.inr h)
  | inf s => right; left; cases s <;> rfl
  | nan => left; rfl

theorem F64.add_notNeg (a b : Pixel)
    (ha : a = Pixel.nan ∨ a = Pixel.inf false ∨ ∃ v : ℚ, 0 ≤ v ∧ a = Pixel.num v)
    (hb : b = Pixel.nan ∨ b = Pixel.inf false ∨ ∃ v : ℚ, 0 ≤ v ∧ b = Pixel.num v) :
    F64.add a b = Pixel.nan ∨ F64.add a b = Pixel.inf false ∨
      ∃ v : ℚ, 0 ≤ v ∧ F64.add a b = Pixel.num v := by
  rcases ha with rfl | rfl | ⟨x, hx, rfl⟩ <;> rcases hb with rfl | rfl | ⟨y, hy, rfl⟩
  · left; rfl
  · left; rfl
  · left; rfl
  · left; rfl
  · right; left; rfl
  · right; left; rfl
  · left; rfl
  · right; left; rfl
  · have h : F64.add (Pixel.num x) (Pixel.num y) = roundDouble (x + y) := rfl
    rw [h]
    rcases roundDouble_nonneg (x + y) (add_nonneg hx hy) with h | h
    · exact Or.inr (Or.inl h)
    · exact Or.inr (Or.inr h)

theorem F64.div_notNeg (a : Pixel) (n : ℤ) (hn : 0 < n)
    (ha : a = Pixel.nan ∨ a = Pixel.inf false ∨ ∃ v : ℚ, 0 ≤ v ∧ a = Pixel.num v) :
    F64.div a (Pixel.ofInt n) = Pixel.nan ∨ F64.div a (Pixel.ofInt n) = Pixel.inf false ∨
      ∃ v : ℚ, 0 ≤ v ∧ F64.div a (Pixel.ofInt n) = Pixel.num v := by
  have hq : (0 : ℚ) < (n : ℚ) := by exact_mod_cast hn
  rcases ha with rfl | rfl | ⟨x, hx, rfl⟩
  · left; rfl
  · right; left
    have h : F64.div (Pixel.inf false) (Pixel.ofInt n) =
        Pixel.inf (xor false (decide ((n : ℚ) < 0))) := rfl
    rw [h]
    simp [not_lt.mpr (le_of_lt hq)]
  · right
    unfold F64.div Pixel.ofInt
    rw [Pixel.num_div_num _ _ (ne_of_gt hq)]
    exact roundDouble_nonneg _ (div_nonneg hx (le_of_lt hq))

/-- The binary64 variance is never negative: it is NaN, `+∞`, or a finite value `≥ 0`. -/
theorem F64_get_variance_notNeg (buf : List Pixel) (length : ℤ) (hl : 0 < length)
    (average : Pixel) :
    F64.get_variance buf length average = Pixel.nan ∨
      F64.get_variance buf length average = Pixel.inf false ∨
      ∃ v : ℚ, 0 ≤ v ∧ F64.get_variance buf length average = Pixel.num v := by
  unfold F64.get_variance
  apply F64.div_notNeg _ _ hl
  exact foldl_range_inv
    (fun (accumulator : Pixel) (i : ℕ) =>
      F64.add accumulator
        (F64.mul (F64.sub (load buf (i : ℤ)) average) (F64.sub (load buf (i : ℤ)) average)))
    (fun _ a => a = Pixel.nan ∨ a = Pixel.inf false ∨ ∃ v : ℚ, 0 ≤ v ∧ a = Pixel.num v)
    length.toNat (Pixel.num 0) (Or.inr (Or.inr ⟨0, le_refl 0, rfl⟩))
    (by
      intro k _ a ha
      exact F64.add_notNeg _ _ ha (F64.mul_self_notNeg _))

theorem pow2_neg_three : pow2 (-3) = 1 / 8 := by
  rw [pow2_eq_zpow]
  norm_num

theorem pow2_neg_34 : pow2 (-34) = 1 / 8 / 2 ^ 31 := by
  rw [pow2_eq_zpow]
  norm_num

/-- Adding, in binary64, a value above the threshold to a sum that is not negative gives
`+∞` or a finite value of at least 1/8. -/
theorem F64.add_above_threshold (a p : Pixel)
    (ha : a = Pixel.inf false ∨ ∃ v : ℚ, 0 ≤ v ∧ a = Pixel.num v)
    (hp : Pixel.gt p THRESHOLD = true) :
    F64.add a p = Pixel.inf false ∨ ∃ v : ℚ, 1 / 8 ≤ v ∧ F64.add a p = Pixel.num v := by
  cases p with
  | num v =>
    rw [gt_threshold] at hp
    have hv : threshold < v := by simpa using hp
    have ht : (1 / 8 : ℚ) < threshold := by unfold threshold; norm_num
    rcases ha with rfl | ⟨x, hx, rfl⟩
    · left; rfl
    · have h : F64.add (Pixel.num x) (Pixel.num v) = roundDouble (x + v) := rfl
      rw [h, ← pow2_neg_three]
      apply roundDouble_ge_pow2 _ _ (by norm_num)
      rw [pow2_neg_three]
      linarith
  | inf s =>
    have hs : s = false := by
      cases s
      · rfl
      · exact absurd hp (by decide)
    subst hs
    rcases ha with rfl | ⟨x, hx, rfl⟩
    · left; rfl
    · left; rfl
  | nan => exact absurd hp (by decide)

/-- The binary64 `sharpness_avg` is strictly positive (`+∞` or a finite value `> 0`) as soon
as one of the `length < 2 ^ 31` cells read holds a value above the threshold, whatever the
other cells hold. -/
theorem F64_sharpness_avg_pos (buf : List Pixel) (length : ℤ) (hlen : length < 2 ^ 31)
    (h : ∃ i : ℕ, i < length.toNat ∧ Pixel.gt (load buf (i : ℤ)) THRESHOLD = true) :
    F64.sharpness_avg buf length = Pixel.inf false ∨
      ∃ v : ℚ, 0 < v ∧ F64.sharpness_avg buf length = Pixel.num v := by
  unfold F64.sharpness_avg
  have hst := foldl_range_inv
    (fun (st : Pixel × ℤ) (i : ℕ) =>
      if Pixel.gt (load buf (i : ℤ)) THRESHOLD then (F64.add st.1 (load buf (i : ℤ)), st.2 + 1)
      else st)
    (fun k st =>
      (st.1 = Pixel.inf false ∨ ∃ v : ℚ, 0 ≤ v ∧ st.1 = Pixel.num v) ∧
      0 ≤ st.2 ∧ st.2 ≤ (k : ℤ) ∧
      ((∃ i : ℕ, i < k ∧ Pixel.gt (load buf (i : ℤ)) THRESHOLD = true) →
        1 ≤ st.2 ∧ (st.1 = Pixel.inf false ∨ ∃ v : ℚ, 1 / 8 ≤ v ∧ st.1 = Pixel.num v)))
    length.toNat (Pixel.num 0, 0)
    ⟨Or.inr ⟨0, le_refl 0, rfl⟩, le_refl 0, by simp, by rintro ⟨i, hi, _⟩; omega⟩
    (by
      rintro k _ ⟨acc, cnt⟩ ⟨h1, h2, h3, h4⟩
      simp only at h1 h2 h3 h4
      by_cases hg : Pixel.gt (load buf (k : ℤ)) THRESHOLD = true
      · simp only [hg, if_true]
        have hadd := F64.add_above_threshold acc (load buf (k : ℤ)) h1 hg
        refine ⟨?_, by omega, by push_cast; omega, fun _ => ⟨by omega, hadd⟩⟩
        rcases hadd with h | ⟨v, hv, h⟩
        · exact Or.inl h
        · exact Or.inr ⟨v, by linarith, h⟩
      · simp only [hg]
        refine ⟨h1, h2, by push_cast; omega, ?_⟩
        rintro ⟨i, hi, hgi⟩
        have hik : i ≠ k := by
          rintro rfl
          exact hg hgi
        exact h4 ⟨i, by omega, hgi⟩)
  obtain ⟨_, _, h3, h4⟩ := hst
  obtain ⟨hc, hacc⟩ := h4 h
  have hcnt : ∀ (acc : Pixel) (cnt : ℤ), 1 ≤ cnt → cnt ≤ (length.toNat : ℤ) →
      (acc = Pixel.inf false ∨ ∃ v : ℚ, 1 / 8 ≤ v ∧ acc = Pixel.num v) →
      F64.div acc (Pixel.ofInt cnt) = Pixel.inf false ∨
        ∃ v : ℚ, 0 < v ∧ F64.div acc (Pixel.ofInt cnt) = Pixel.num v := by
    intro acc cnt hc1 hc2 hacc
    have hq : (0 : ℚ) < (cnt : ℚ) := by exact_mod_cast (by omega : 0 < cnt)
    have hq2 : (cnt : ℚ) ≤ 2 ^ 31 := by
      have : cnt ≤ 2 ^ 31 := by omega
      exact_mod_cast this
    rcases hacc with rfl | ⟨x, hx, rfl⟩
    · left
      have h : F64.div (Pixel.inf false) (Pixel.ofInt cnt) =
          Pixel.inf (xor false (decide ((cnt : ℚ) < 0))) := rfl
      rw [h]
      simp [not_lt.mpr (le_of_lt hq)]
    · unfold F64.div Pixel.ofInt
      rw [Pixel.num_div_num _ _ (ne_of_gt hq)]
      have hlow : pow2 (-34) ≤ x / (cnt : ℚ) := by
        rw [pow2_neg_34, le_div_iff₀ hq]
        calc (1 / 8 / 2 ^ 31 : ℚ) * (cnt : ℚ) ≤ 1 / 8 / 2 ^ 31 * 2 ^ 31 :=
              mul_le_mul_of_nonneg_left hq2 (by norm_num)
          _ = 1 / 8 := by norm_num
          _ ≤ x := hx
      rcases roundDouble_ge_pow2 _ (-34) (by norm_num) hlow with h | ⟨r, hr, h⟩
      · exact Or.inl h
      · exact Or.inr ⟨r, lt_of_lt_of_le (pow2_pos _) hr, h⟩
  exact hcnt _ _ hc h3 hacc
/-! ## Properties of `filter_image` -/

/-- C6: for every kernel and all dimensions `height, width ≥ 1`, the buffer returned by
`filter_image` has exactly `height * width` cells, whatever the size of the kernel. -/
theorem C6_filter_image_length (filt : Filter) (input : List Pixel) (height width : ℤ)
    (hh : 1 ≤ height) (hw : 1 ≤ width) :
    ((filter_image filt input height width).length : ℤ) = height * width := by
  rw [length_filter_image]
  exact Int.toNat_of_nonneg (by positivity)

/-- C6, at a 1x5 kernel and a 2x3 image. -/
theorem C6_filter_image_length_witness :
    (1 : ℤ) ≤ 2 ∧ (1 : ℤ) ≤ 3 ∧
    ((filter_image ⟨1, 5, List.replicate 5 (Pixel.num 1)⟩
      (List.replicate 6 (Pixel.num 2)) 2 3).length : ℤ) = 2 * 3 :=
  ⟨by decide, by decide,
    C6_filter_image_length ⟨1, 5, List.replicate 5 (Pixel.num 1)⟩
      (List.replicate 6 (Pixel.num 2)) 2 3 (by decide) (by decide)⟩


/-- C9 fails in the binary64 arithmetic of the code: on the uniform 3x3 image of 0.1 the
nine rounded products and sums leave `2^-55` at the centre pixel, where all 9 taps are in
bounds. -/
theorem C9_counterexample :
    (F64.filter_image initialize_3x3_laplacian (List.replicate 9 (roundDouble 0.1))
      3 3)[1 * 3 + 1]? = some (Pixel.num (1 / 2 ^ 55)) ∧
    (F64.filter_image initialize_3x3_laplacian (List.replicate 9 (roundDouble 0.1))
      3 3)[1 * 3 + 1]? ≠ some (Pixel.num 0) := by
  refine ⟨by decide!, by decide!⟩

/-- C9 (amended): on a uniform image, at every pixel `(y, x)` with `1 ≤ y ≤ H - 2` and
`1 ≤ x ≤ W - 2`, where all 9 taps are in bounds, `filter_image` with the 3x3 Laplacian gives
exactly zero in the binary64 arithmetic of the code when the value is an integer `k` with
`|k| ≤ 2 ^ 46` (no product and no partial sum is then rounded), and in exact arithmetic for
every value `c`. -/
theorem C9_laplacian_uniform_interior_zero (H W : ℕ) (k : ℤ) (c : ℚ) (y x : ℕ)
    (hk : |k| ≤ 2 ^ 46)
    (hy1 : 1 ≤ y) (hy2 : y + 2 ≤ H) (hx1 : 1 ≤ x) (hx2 : x + 2 ≤ W) :
    (F64.filter_image initialize_3x3_laplacian (List.replicate (H * W) (Pixel.num (k : ℚ)))
      H W)[y * W + x]? = some (Pixel.num 0) ∧
    (filter_image initialize_3x3_laplacian (List.replicate (H * W) (Pixel.num c)) H W)[y * W + x]? =
      some (Pixel.num 0) := by
  have hz : ∀ v : ℚ,
      (filter_image initialize_3x3_laplacian (List.replicate (H * W) (Pixel.num v))
        H W)[y * W + x]? = some (Pixel.num 0) := by
    intro v
    rw [laplacian_uniform_getElem H W v y x (by omega) (by omega), card_inBoundsTaps_three,
      axisTaps_interior H y hy1 hy2, axisTaps_interior W x hx1 hx2]
    norm_num
  refine ⟨?_, hz c⟩
  rw [F64_filter_image_laplacian_uniform H W k hk]
  exact hz _

/-- C9 (amended), at the centre of the 3x3 image of all 5. -/
theorem C9_laplacian_uniform_interior_zero_witness :
    (|(5 : ℤ)| ≤ 2 ^ 46 ∧ 1 ≤ 1 ∧ 1 + 2 ≤ 3) ∧
    (F64.filter_image initialize_3x3_laplacian
      (List.replicate (3 * 3) (Pixel.num ((5 : ℤ) : ℚ))) (3 : ℕ) (3 : ℕ))[1 * 3 + 1]? =
        some (Pixel.num 0) ∧
    (filter_image initialize_3x3_laplacian (List.replicate (3 * 3) (Pixel.num 5))
      (3 : ℕ) (3 : ℕ))[1 * 3 + 1]? = some (Pixel.num 0) :=
  ⟨⟨by decide, by decide, by decide⟩,
    C9_laplacian_uniform_interior_zero 3 3 5 5 1 1 (by decide) (by decide) (by decide)
      (by decide) (by decide)⟩

/-- C10 fails: on the 4x4 image of all 5.0 the Laplacian response is 25 at the corners
(`8*5 - 3*5`), 15 on the edges (`8*5 - 5*5`) and 0 only at the four interior pixels, in exact
arithmetic and in binary64 alike. -/
theorem C10_counterexample :
    filter_image initialize_3x3_laplacian (List.replicate 16 (Pixel.num 5)) 4 4 =
      [Pixel.num 25, Pixel.num 15, Pixel.num 15, Pixel.num 25,
       Pixel.num 15, Pixel.num 0, Pixel.num 0, Pixel.num 15,
       Pixel.num 15, Pixel.num 0, Pixel.num 0, Pixel.num 15,
       Pixel.num 25, Pixel.num 15, Pixel.num 15, Pixel.num 25] ∧
    filter_image initialize_3x3_laplacian (List.replicate 16 (Pixel.num 5)) 4 4 ≠
      List.replicate 16 (Pixel.num 0) ∧
    F64.filter_image initialize_3x3_laplacian (List.replicate 16 (Pixel.num 5)) 4 4 =
      filter_image initialize_3x3_laplacian (List.replicate 16 (Pixel.num 5)) 4 4 := by
  refine ⟨by decide!, by decide!, by decide!⟩

/-- C10 (amended): on a uniform image, the Laplacian response at the pixel `(y, x)` is the
value times `9 - n`, where `n` is the number of in-bounds taps at that pixel: in the binary64
arithmetic of the code when the value is an integer `k` with `|k| ≤ 2 ^ 46` (no product and
no partial sum is then rounded), and in exact arithmetic for every value `c`.  `n = 9` at
the pixels with `1 ≤ y ≤ H - 2` and `1 ≤ x ≤ W - 2`, where the response is zero, and
`1 ≤ n ≤ 6` at every border or corner pixel, where the partial-tap sum is zero only if the
value is zero. -/
theorem C10_laplacian_uniform_response (H W : ℕ) (k : ℤ) (c : ℚ) (y x : ℕ)
    (hk : |k| ≤ 2 ^ 46) (hy : y < H) (hx : x < W) :
    (F64.filter_image initialize_3x3_laplacian (List.replicate (H * W) (Pixel.num (k : ℚ)))
        H W)[y * W + x]? =
      some (Pixel.num ((k : ℚ) * (9 - ((inBoundsTaps 3 3 H W y x).card : ℚ)))) ∧
    (filter_image initialize_3x3_laplacian (List.replicate (H * W) (Pixel.num c)) H W)[y * W + x]? =
      some (Pixel.num (c * (9 - ((inBoundsTaps 3 3 H W y x).card : ℚ)))) ∧
    ((1 ≤ y ∧ y + 2 ≤ H ∧ 1 ≤ x ∧ x + 2 ≤ W) → (inBoundsTaps 3 3 H W y x).card = 9) ∧
    (¬ (1 ≤ y ∧ y + 2 ≤ H ∧ 1 ≤ x ∧ x + 2 ≤ W) →
      (1 ≤ (inBoundsTaps 3 3 H W y x).card ∧ (inBoundsTaps 3 3 H W y x).card ≤ 6) ∧
      ((filter_image initialize_3x3_laplacian (List.replicate (H * W) (Pixel.num c))
          H W)[y * W + x]? = some (Pixel.num 0) ↔ c = 0)) := by
  have hout := laplacian_uniform_getElem H W c y x hy hx
  have houtk := laplacian_uniform_getElem H W (k : ℚ) y x hy hx
  rw [← F64_filter_image_laplacian_uniform H W k hk] at houtk
  refine ⟨houtk, hout, ?_, ?_⟩
  · rintro ⟨h1, h2, h3, h4⟩
    rw [card_inBoundsTaps_three, axisTaps_interior H y h1 h2, axisTaps_interior W x h3 h4]
  · intro hb
    have hcard : 1 ≤ (inBoundsTaps 3 3 H W y x).card ∧ (inBoundsTaps 3 3 H W y x).card ≤ 6 := by
      rw [card_inBoundsTaps_three]
      have py := axisTaps_pos H y hy
      have px := axisTaps_pos W x hx
      have ly := axisTaps_le_three H y
      have lx := axisTaps_le_three W x
      constructor
      · exact Nat.mul_pos py px
      · by_cases hyb : y = 0 ∨ y + 1 = H
        · have := axisTaps_border H y hy hyb
          calc axisTaps H y * axisTaps W x ≤ 2 * 3 := Nat.mul_le_mul this lx
            _ = 6 := rfl
        · have hxb : x = 0 ∨ x + 1 = W := by omega
          have := axisTaps_border W x hx hxb
          calc axisTaps H y * axisTaps W x ≤ 3 * 2 := Nat.mul_le_mul ly this
            _ = 6 := rfl
    refine ⟨hcard, ?_⟩
    rw [hout]
    have hn : ((inBoundsTaps 3 3 H W y x).card : ℚ) ≤ 6 := by exact_mod_cast hcard.2
    constructor
    · intro h
      have h0 : c * (9 - ((inBoundsTaps 3 3 H W y x).card : ℚ)) = 0 :=
        Pixel.num_injective (Option.some.inj h)
      rcases mul_eq_zero.mp h0 with h1 | h1
      · exact h1
      · linarith
    · intro h
      rw [h, zero_mul]

/-- C10 (amended), at the corner `(0, 0)` of the 4x4 image of all 5: four taps in bounds
and the response `5 * (9 - 4) = 25`. -/
theorem C10_laplacian_uniform_response_witness :
    (|(5 : ℤ)| ≤ 2 ^ 46 ∧ 0 < 4 ∧ ¬ (1 ≤ 0 ∧ 0 + 2 ≤ 4 ∧ 1 ≤ 0 ∧ 0 + 2 ≤ 4)) ∧
    (F64.filter_image initialize_3x3_laplacian
      (List.replicate (4 * 4) (Pixel.num ((5 : ℤ) : ℚ))) (4 : ℕ) (4 : ℕ))[0 * 4 + 0]? =
        some (Pixel.num (((5 : ℤ) : ℚ) * (9 - ((inBoundsTaps 3 3 4 4 0 0).card : ℚ)))) ∧
    (filter_image initialize_3x3_laplacian (List.replicate (4 * 4) (Pixel.num 5))
      (4 : ℕ) (4 : ℕ))[0 * 4 + 0]? =
        some (Pixel.num (5 * (9 - ((inBoundsTaps 3 3 4 4 0 0).card : ℚ)))) ∧
    (1 ≤ (inBoundsTaps 3 3 4 4 0 0).card ∧ (inBoundsTaps 3 3 4 4 0 0).card ≤ 6) :=
  ⟨⟨by decide, by decide, by decide⟩,
    (C10_laplacian_uniform_response 4 4 5 5 0 0 (by decide) (by decide) (by decide)).1,
    (C10_laplacian_uniform_response 4 4 5 5 0 0 (by decide) (by decide) (by decide)).2.1,
    ((C10_laplacian_uniform_response 4 4 5 5 0 0 (by decide) (by decide)
      (by decide)).2.2.2 (by decide)).1⟩


/-! ## Properties of the sharpness reductions -/

/-- C2 fails: on the 4x4 image of all 5.0 the filtered buffer has the values 25, 15 and 0
(corners, edges, interior) and `get_variance_sharpness` returns 1275/16 = 79.6875, in exact
arithmetic and in binary64 alike; and in binary64 the uniform 2x2 image of 0.1, whose four
pixels have the same taps, still gets the variance `2^-108` because the mean is rounded. -/
theorem C2_counterexample :
    get_variance_sharpness (List.replicate 16 (Pixel.num 5)) 4 4 = Pixel.num (1275 / 16) ∧
    get_variance_sharpness (List.replicate 16 (Pixel.num 5)) 4 4 ≠ Pixel.num 0 ∧
    F64.get_variance_sharpness (List.replicate 16 (Pixel.num 5)) 4 4 = Pixel.num (1275 / 16) ∧
    F64.get_variance_sharpness (List.replicate 4 (roundDouble 0.1)) 2 2 =
      Pixel.num (1 / 2 ^ 108) := by
  refine ⟨by decide!, by decide!, by decide!, by decide!⟩

/-- C2 (amended): `get_variance_sharpness` returns variance 0 on a uniform image (`H, W ≥ 1`)
when the value is 0, or when the image is at most 2x2 (every pixel then has the same number
of in-bounds taps): in the binary64 arithmetic of the code when the value is an integer `k`
with `|k| ≤ 2 ^ 46` (no operation is then rounded), and in exact arithmetic for every value
`c`. -/
theorem C2_variance_uniform_image (H W : ℕ) (k : ℤ) (c : ℚ) (hH : 1 ≤ H) (hW : 1 ≤ W)
    (hk : |k| ≤ 2 ^ 46) (hk0 : k = 0 ∨ (H ≤ 2 ∧ W ≤ 2)) (hc0 : c = 0 ∨ (H ≤ 2 ∧ W ≤ 2)) :
    F64.get_variance_sharpness (List.replicate (H * W) (Pixel.num (k : ℚ))) H W =
      Pixel.num 0 ∧
    get_variance_sharpness (List.replicate (H * W) (Pixel.num c)) H W = Pixel.num 0 := by
  refine ⟨F64_variance_uniform_int H W k hH hW hk hk0, ?_⟩
  have hn : (0 : ℤ) < (H : ℤ) * (W : ℤ) := Int.mul_pos (by omega) (by omega)
  have hcast : ((H : ℤ) * (W : ℤ)).toNat = H * W := by
    rw [← Nat.cast_mul, Int.toNat_natCast]
  refine get_variance_sharpness_uniform _ _ _ (c * (9 - ((H * W : ℕ) : ℚ))) ?_ hn
  rw [hcast]
  exact laplacian_uniform_small H W c hc0

/-- C2 (amended), at the 2x2 image of all 5, where the variance is 0. -/
theorem C2_variance_uniform_image_witness :
    (1 ≤ 2 ∧ |(5 : ℤ)| ≤ 2 ^ 46 ∧ ((5 : ℤ) = 0 ∨ (2 ≤ 2 ∧ 2 ≤ 2)) ∧
      ((5 : ℚ) = 0 ∨ (2 ≤ 2 ∧ 2 ≤ 2))) ∧
    F64.get_variance_sharpness (List.replicate (2 * 2) (Pixel.num ((5 : ℤ) : ℚ)))
      (2 : ℕ) (2 : ℕ) = Pixel.num 0 ∧
    get_variance_sharpness (List.replicate (2 * 2) (Pixel.num 5)) (2 : ℕ) (2 : ℕ) =
      Pixel.num 0 :=
  ⟨⟨by decide, by decide, Or.inr ⟨by decide, by decide⟩, Or.inr ⟨by decide, by decide⟩⟩,
    C2_variance_uniform_image 2 2 5 5 (by decide) (by decide) (by decide)
      (Or.inr ⟨by decide, by decide⟩) (Or.inr ⟨by decide, by decide⟩)⟩

/-- C11: `initialize_3x3_laplacian` takes no input and returns the kernel of height 3 and
width 3 whose row-major coefficients are exactly `[-1, -1, -1, -1, 8, -1, -1, -1, -1]`: 9
coefficients, as many as `height * width`, summing to 0. -/
theorem C11_laplacian_kernel :
    initialize_3x3_laplacian.height = 3 ∧ initialize_3x3_laplacian.width = 3 ∧
    initialize_3x3_laplacian.coefs =
      ([-1, -1, -1, -1, 8, -1, -1, -1, -1] : List ℚ).map Pixel.num ∧
    (initialize_3x3_laplacian.coefs.length : ℤ) =
      initialize_3x3_laplacian.height * initialize_3x3_laplacian.width ∧
    initialize_3x3_laplacian.coefs.length = 9 ∧
    initialize_3x3_laplacian.coefs.foldl (fun s c => s + c) (Pixel.num 0) = Pixel.num 0 ∧
    ([-1, -1, -1, -1, 8, -1, -1, -1, -1] : List ℚ).sum = 0 := by
  refine ⟨rfl, rfl, rfl, by decide, rfl, by decide!, by norm_num⟩

/-- C12: when `create_rgb_image w h` yields an image of width `w` and height `h`,
`create_filtered_RGB` returns an image with the height and width of the input whose `r`, `g`
and `b` channels are `filter_image` of the input's `r`, `g` and `b` channels, each computed
from its own channel only; so equal input channels give equal output channels. -/
theorem C12_create_filtered_RGB_channels (create_rgb_image : ℤ → ℤ → Image_RGB)
    (hcreate : ∀ w h, (create_rgb_image w h).width = w ∧ (create_rgb_image w h).height = h)
    (input : Image_RGB) (filt : Filter) :
    (create_filtered_RGB create_rgb_image input filt).height = input.height ∧
    (create_filtered_RGB create_rgb_image input filt).width = input.width ∧
    (create_filtered_RGB create_rgb_image input filt).r =
      filter_image filt input.r input.height input.width ∧
    (create_filtered_RGB create_rgb_image input filt).g =
      filter_image filt input.g input.height input.width ∧
    (create_filtered_RGB create_rgb_image input filt).b =
      filter_image filt input.b input.height input.width ∧
    (input.r = input.g → input.g = input.b →
      (create_filtered_RGB create_rgb_image input filt).r =
        (create_filtered_RGB create_rgb_image input filt).g ∧
      (create_filtered_RGB create_rgb_image input filt).g =
        (create_filtered_RGB create_rgb_image input filt).b) := by
  obtain ⟨hw, hh⟩ := hcreate input.width input.height
  simp only [create_filtered_RGB, hw, hh]
  refine ⟨trivial, trivial, trivial, trivial, trivial, ?_⟩
  intro h1 h2
  rw [h1, h2]
  exact ⟨rfl, rfl⟩

/-- C12, for an allocator that returns indeterminate channels of the requested size, the
Laplacian and a 1x2 image whose three channels are `[1, 2]`. -/
theorem C12_create_filtered_RGB_channels_witness :
    (∀ w h : ℤ,
      (Image_RGB.mk h w (malloc (h * w)) (malloc (h * w)) (malloc (h * w))).width = w ∧
      (Image_RGB.mk h w (malloc (h * w)) (malloc (h * w)) (malloc (h * w))).height = h) ∧
    (create_filtered_RGB
      (fun w h => Image_RGB.mk h w (malloc (h * w)) (malloc (h * w)) (malloc (h * w)))
      (Image_RGB.mk 1 2 [Pixel.num 1, Pixel.num 2] [Pixel.num 1, Pixel.num 2]
        [Pixel.num 1, Pixel.num 2])
      initialize_3x3_laplacian).r =
      filter_image initialize_3x3_laplacian [Pixel.num 1, Pixel.num 2] 1 2 :=
  ⟨fun _ _ => ⟨rfl, rfl⟩,
    (C12_create_filtered_RGB_channels
      (fun w h => Image_RGB.mk h w (malloc (h * w)) (malloc (h * w)) (malloc (h * w)))
      (fun _ _ => ⟨rfl, rfl⟩)
      (Image_RGB.mk 1 2 [Pixel.num 1, Pixel.num 2] [Pixel.num 1, Pixel.num 2]
        [Pixel.num 1, Pixel.num 2])
      initialize_3x3_laplacian).2.2.1⟩

/-! ## Order independence of the threshold average -/

theorem Pixel.add_swap_right (a p q : Pixel) : a + p + q = a + q + p := by
  show Pixel.add (Pixel.add a p) q = Pixel.add (Pixel.add a q) p
  cases a <;> cases p <;> cases q <;>
    simp only [Pixel.add] <;>
    (try split_ifs) <;> first | rfl | (rw [add_right_comm]) | simp_all

/-- The indices `0 .. length - 1` read the buffer front to back. -/
theorem map_load_range (buf : List Pixel) :
    (List.range buf.length).map (fun (i : ℕ) => load buf (i : ℤ)) = buf := by
  apply List.ext_getElem?
  intro i
  rw [List.getElem?_map]
  by_cases hi : i < buf.length
  · rw [List.getElem?_range hi, List.getElem?_eq_getElem hi]
    simp [load_natCast, List.getD_eq_getElem?_getD, List.getElem?_eq_getElem hi]
  · rw [List.getElem?_eq_none (by simpa using hi), List.getElem?_eq_none (by omega)]
    rfl

/-- When `length` is the length of the buffer, `sharpness_avg` folds its loop body over the
entries of the buffer. -/
theorem sharpness_avg_eq_foldl (buf : List Pixel) :
    sharpness_avg buf buf.length =
      (buf.foldl
          (fun (st : Pixel × ℤ) (p : Pixel) =>
            if Pixel.gt p THRESHOLD then (st.1 + p, st.2 + 1) else st)
          (Pixel.num 0, 0)).1 /
        Pixel.ofInt (buf.foldl
          (fun (st : Pixel × ℤ) (p : Pixel) =>
            if Pixel.gt p THRESHOLD then (st.1 + p, st.2 + 1) else st)
          (Pixel.num 0, 0)).2 := by
  unfold sharpness_avg
  simp only [Int.toNat_natCast]
  have h := List.foldl_map (fun (i : ℕ) => load buf (i : ℤ))
    (fun (st : Pixel × ℤ) (p : Pixel) =>
      if Pixel.gt p THRESHOLD then (st.1 + p, st.2 + 1) else st)
    (List.range buf.length) (Pixel.num 0, 0)
  rw [map_load_range] at h
  rw [h]

/-- C13: `sharpness_avg` returns the same result on a buffer and on every permutation of its
entries. -/
theorem C13_sharpness_avg_perm (buf buf' : List Pixel) (hperm : buf.Perm buf') :
    sharpness_avg buf buf.length = sharpness_avg buf' buf'.length := by
  rw [sharpness_avg_eq_foldl, sharpness_avg_eq_foldl]
  have h := List.Perm.foldl_eq'
    (f := fun (st : Pixel × ℤ) (p : Pixel) =>
      if Pixel.gt p THRESHOLD then (st.1 + p, st.2 + 1) else st)
    hperm
    (by
      intro p _ q _ st
      by_cases hp : Pixel.gt p THRESHOLD = true <;> by_cases hq : Pixel.gt q THRESHOLD = true
      · simp only [hp, hq, if_true]
        rw [Pixel.add_swap_right]
      · simp only [hp, hq, if_true, if_false]
        simp
      · simp only [hp, hq, if_true, if_false]
        simp
      · simp only [hp, hq, if_false]
        simp)
    (Pixel.num 0, 0)
  rw [h]

/-- C13, on the buffer `[1, 0.1, 3]` and its rotation `[3, 1, 0.1]`: both give `(1 + 3) / 2`. -/
theorem C13_sharpness_avg_perm_witness :
    List.Perm [Pixel.num 1, Pixel.num 0.1, Pixel.num 3]
      [Pixel.num 3, Pixel.num 1, Pixel.num 0.1] ∧
    sharpness_avg [Pixel.num 1, Pixel.num 0.1, Pixel.num 3] 3 = Pixel.num 2 ∧
    sharpness_avg [Pixel.num 3, Pixel.num 1, Pixel.num 0.1] 3 = Pixel.num 2 :=
  ⟨by decide!,
    by decide!,
    (C13_sharpness_avg_perm [Pixel.num 1, Pixel.num 0.1, Pixel.num 3]
      [Pixel.num 3, Pixel.num 1, Pixel.num 0.1] (by decide!)).symm.trans (by decide!)⟩

/-- C14: `get_average_sharpness` is not invariant under a permutation of the pixels of the
unfiltered image: the 1x3 images `[1, 1, 0]` and `[1, 0, 1]` are permutations of each other,
the result is defined (finite) on both, and it is 7 on the first and 8 on the second. -/
theorem C14_average_sharpness_not_spatially_invariant :
    List.Perm [Pixel.num 1, Pixel.num 1, Pixel.num 0]
      [Pixel.num 1, Pixel.num 0, Pixel.num 1] ∧
    get_average_sharpness [Pixel.num 1, Pixel.num 1, Pixel.num 0] 1 3 = Pixel.num 7 ∧
    get_average_sharpness [Pixel.num 1, Pixel.num 0, Pixel.num 1] 1 3 = Pixel.num 8 ∧
    get_average_sharpness [Pixel.num 1, Pixel.num 1, Pixel.num 0] 1 3 ≠
      get_average_sharpness [Pixel.num 1, Pixel.num 0, Pixel.num 1] 1 3 := by
  refine ⟨by decide!, by decide!, by decide!, by decide!⟩

/-! ## The Laplacian on an isolated spike -/

theorem sum_gt_of_forall_gt (G : List ℚ) (a : ℚ) (h : ∀ v ∈ G, a < v) (hne : G ≠ []) :
    a * (G.length : ℚ) < G.sum := by
  induction G with
  | nil => exact absurd rfl hne
  | cons u G ih =>
    have hu : a < u := h u (List.mem_cons_self u G)
    rw [List.length_cons, List.sum_cons]
    push_cast
    by_cases hG : G = []
    · subst hG
      simp only [List.length_nil, List.sum_nil, Nat.cast_zero]
      linarith
    · have := ih (fun v hv => h v (List.mem_cons_of_mem u hv)) hG
      linarith

theorem sum_le_of_forall_le (G : List ℚ) (M : ℚ) (h : ∀ v ∈ G, v ≤ M) :
    G.sum ≤ M * (G.length : ℚ) := by
  induction G with
  | nil => simp
  | cons u G ih =>
    have hu : u ≤ M := h u (List.mem_cons_self u G)
    have := ih (fun v hv => h v (List.mem_cons_of_mem u hv))
    rw [List.length_cons, List.sum_cons]
    push_cast
    linarith

/-- A non-empty buffer has a maximum. -/
theorem exists_max_of_ne_nil (F : List ℚ) (hne : F ≠ []) : ∃ M ∈ F, ∀ v ∈ F, v ≤ M := by
  induction F with
  | nil => exact absurd rfl hne
  | cons u F ih =>
    by_cases hF : F = []
    · subst hF
      exact ⟨u, List.mem_cons_self u [], by simp⟩
    · obtain ⟨M, hM, hle⟩ := ih hF
      by_cases hu : u ≤ M
      · refine ⟨M, List.mem_cons_of_mem u hM, ?_⟩
        intro v hv
        rcases List.mem_cons.mp hv with h | h
        · rw [h]; exact hu
        · exact hle v h
      · refine ⟨u, List.mem_cons_self u F, ?_⟩
        intro v hv
        rcases List.mem_cons.mp hv with h | h
        · rw [h]
        · have := hle v h
          linarith

/-- C16 fails in the binary64 arithmetic of the code.  On three cells equal to the `double`
0.8516929727227629 the rounded sum divided by 3 is one unit in the last place above the
cells, hence above the maximum of the buffer; on 48 cells equal to the `double`
0.20000000000000004, all above the threshold, the result is below the threshold and below
1/5. -/
theorem C16_counterexample :
    roundDouble 0.8516929727227629 = Pixel.num (3835684154588305 / 2 ^ 52) ∧
    F64.sharpness_avg (List.replicate 3 (roundDouble 0.8516929727227629)) 3 =
      Pixel.num (7671368309176611 / 2 ^ 53) ∧
    (3835684154588305 / 2 ^ 52 : ℚ) < 7671368309176611 / 2 ^ 53 ∧
    roundDouble 0.20000000000000004 = Pixel.num (7205759403792795 / 2 ^ 55) ∧
    threshold < 7205759403792795 / 2 ^ 55 ∧
    F64.sharpness_avg (List.replicate 48 (roundDouble 0.20000000000000004)) 48 =
      Pixel.num (7205759403792793 / 2 ^ 55) ∧
    (7205759403792793 / 2 ^ 55 : ℚ) < 1 / 5 ∧ (1 / 5 : ℚ) < threshold := by
  refine ⟨by decide!, by decide!, by norm_num, by decide!, by unfold threshold; norm_num,
    by decide!, by norm_num, by unfold threshold; norm_num⟩

/-- C16 (amended): for every buffer of fewer than `2 ^ 31` finite values with at least one
value strictly greater than the threshold (the `double` 0.2), whatever negative values the
buffer holds: in the binary64 arithmetic of the code the result of `sharpness_avg` is
strictly positive (`+∞` after an overflow of the sum, or a finite value `> 0`); in exact
arithmetic the result `r` is finite, strictly greater than the threshold (hence positive),
and no greater than the maximum `M` of the buffer. -/
theorem C16_sharpness_avg_bounds (F : List ℚ) (hlen : (F.length : ℤ) < 2 ^ 31)
    (hpos : ∃ v ∈ F, threshold < v) :
    (F64.sharpness_avg (F.map Pixel.num) F.length = Pixel.inf false ∨
      ∃ r : ℚ, 0 < r ∧ F64.sharpness_avg (F.map Pixel.num) F.length = Pixel.num r) ∧
    ∃ r M : ℚ, sharpness_avg (F.map Pixel.num) F.length = Pixel.num r ∧
      threshold < r ∧ 0 < r ∧ M ∈ F ∧ (∀ v ∈ F, v ≤ M) ∧ r ≤ M := by
  have hbin : F64.sharpness_avg (F.map Pixel.num) F.length = Pixel.inf false ∨
      ∃ r : ℚ, 0 < r ∧ F64.sharpness_avg (F.map Pixel.num) F.length = Pixel.num r := by
    apply F64_sharpness_avg_pos _ _ hlen
    obtain ⟨v, hv, hlt⟩ := hpos
    obtain ⟨i, hi, hiv⟩ := List.getElem_of_mem hv
    refine ⟨i, by simpa using hi, ?_⟩
    rw [load_map_num_nat F i hi, gt_threshold, List.getD_eq_getElem _ _ hi, hiv]
    simpa using hlt
  have hF : F ≠ [] := by
    obtain ⟨v, hv, _⟩ := hpos
    exact List.ne_nil_of_mem hv
  obtain ⟨M, hM, hle⟩ := exists_max_of_ne_nil F hF
  have hG : F.filter (fun v => threshold < v) ≠ [] := by
    obtain ⟨v, hv, hlt⟩ := hpos
    have : v ∈ F.filter (fun v => threshold < v) := by
      rw [List.mem_filter]
      exact ⟨hv, by simpa using hlt⟩
    exact List.ne_nil_of_mem this
  have hlen : (0 : ℚ) < ((F.filter (fun v => threshold < v)).length : ℚ) := by
    have := List.length_pos_of_ne_nil hG
    exact_mod_cast this
  have hlow := sum_gt_of_forall_gt (F.filter (fun v => threshold < v)) threshold
    (by
      intro v hv
      rw [List.mem_filter] at hv
      simpa using hv.2) hG
  have hup := sum_le_of_forall_le (F.filter (fun v => threshold < v)) M
    (by
      intro v hv
      rw [List.mem_filter] at hv
      exact hle v hv.1)
  have hr : threshold < (F.filter (fun v => threshold < v)).sum /
      ((F.filter (fun v => threshold < v)).length : ℚ) := by
    rw [lt_div_iff₀ hlen]
    exact hlow
  refine ⟨hbin, _, M, sharpness_avg_num F F.length (Int.toNat_natCast _) hpos, hr, ?_, hM,
    hle, ?_⟩
  · have : (0 : ℚ) < threshold := by unfold threshold; norm_num
    linarith
  · rw [div_le_iff₀ hlen]
    exact hup

/-- C16 (amended), at the buffer `[1, -100, 3, 0.2]`: the result is `(1 + 3) / 2 = 2`,
between 0.2 and the maximum 3. -/
theorem C16_sharpness_avg_bounds_witness :
    ((([1, -100, 3, 0.2] : List ℚ).length : ℤ) < 2 ^ 31 ∧
      ∃ v ∈ ([1, -100, 3, 0.2] : List ℚ), threshold < v) ∧
    (F64.sharpness_avg (([1, -100, 3, 0.2] : List ℚ).map Pixel.num)
        (([1, -100, 3, 0.2] : List ℚ).length) = Pixel.inf false ∨
      ∃ r : ℚ, 0 < r ∧ F64.sharpness_avg (([1, -100, 3, 0.2] : List ℚ).map Pixel.num)
        (([1, -100, 3, 0.2] : List ℚ).length) = Pixel.num r) ∧
    ∃ r M : ℚ, sharpness_avg (([1, -100, 3, 0.2] : List ℚ).map Pixel.num)
        (([1, -100, 3, 0.2] : List ℚ).length) = Pixel.num r ∧
      threshold < r ∧ 0 < r ∧ M ∈ ([1, -100, 3, 0.2] : List ℚ) ∧
      (∀ v ∈ ([1, -100, 3, 0.2] : List ℚ), v ≤ M) ∧ r ≤ M :=
  ⟨⟨by decide, ⟨1, by simp, by unfold threshold; norm_num⟩⟩,
    C16_sharpness_avg_bounds [1, -100, 3, 0.2] (by decide)
      ⟨1, by simp, by unfold threshold; norm_num⟩⟩

/-! ## The array accesses of `filter_image` -/

theorem written_taps_nil (filt : Filter) (height width : ℤ) (y x : ℕ) :
    ((List.range filt.height.toNat).flatMap (fun (fy : ℕ) =>
        (List.range filt.width.toNat).flatMap (fun (fx : ℕ) =>
          if (y : ℤ) + fy - Int.tdiv filt.height 2 ≥ 0 ∧
              (y : ℤ) + fy - Int.tdiv filt.height 2 < height ∧
              (x : ℤ) + fx - Int.tdiv filt.width 2 ≥ 0 ∧
              (x : ℤ) + fx - Int.tdiv filt.width 2 < width then
            [Access.input (((y : ℤ) + fy - Int.tdiv filt.height 2) * width +
                ((x : ℤ) + fx - Int.tdiv filt.width 2)),
              Access.coefs ((fy : ℤ) * filt.width + fx)]
          else []))).filterMap Access.written = [] := by
  rw [List.filterMap_eq_nil_iff]
  intro a ha
  rw [List.mem_flatMap] at ha
  obtain ⟨fy, _, ha⟩ := ha
  rw [List.mem_flatMap] at ha
  obtain ⟨fx, _, ha⟩ := ha
  split_ifs at ha
  · rcases List.mem_cons.mp ha with h | h
    · rw [h]; rfl
    · rw [List.mem_singleton.mp h]; rfl
  · cases ha

theorem flatMap_single (l : List ℕ) (f : ℕ → ℤ) : l.flatMap (fun x => [f x]) = l.map f := by
  induction l with
  | nil => rfl
  | cons a l ih => rw [List.flatMap_cons, ih]; rfl

/-- The cells of a `H` x `W` buffer taken row by row are the cells `0 .. H * W - 1` in
order. -/
theorem flatMap_rows (H W : ℕ) :
    (List.range H).flatMap (fun (y : ℕ) =>
        (List.range W).flatMap (fun (x : ℕ) => [((y : ℤ) * (W : ℤ) + (x : ℤ))])) =
      (List.range (H * W)).map (fun (i : ℕ) => (i : ℤ)) := by
  induction H with
  | zero => simp
  | succ H ih =>
    rw [List.range_succ, List.flatMap_append, ih, List.flatMap_singleton, flatMap_single,
      Nat.succ_mul, List.range_add, List.map_append, List.map_map]
    congr 1

/-- The writes of `filter_image`, in program order. -/
theorem written_accesses (filt : Filter) (H W : ℕ) :
    (filter_image.accesses filt H W).filterMap Access.written =
      (List.range (H * W)).map (fun (i : ℕ) => (i : ℤ)) := by
  simp only [filter_image.accesses, Int.toNat_natCast]
  rw [← flatMap_rows H W, List.filterMap_flatMap]
  apply List.flatMap_congr
  intro y _
  rw [List.filterMap_flatMap]
  apply List.flatMap_congr
  intro x _
  rw [List.filterMap_append, written_taps_nil filt H W y x]
  rfl

/-- Every access of `filter_image` falls inside the buffer it addresses. -/
theorem accesses_in_bounds (filt : Filter) (H W FH FW : ℕ) (hfh : filt.height = FH)
    (hfw : filt.width = FW) :
    ∀ a ∈ filter_image.accesses filt H W, Access.inBounds (H * W) (FH * FW) (H * W) a := by
  intro a ha
  simp only [filter_image.accesses, Int.toNat_natCast, hfh, hfw] at ha
  rw [List.mem_flatMap] at ha
  obtain ⟨y, hy, ha⟩ := ha
  rw [List.mem_flatMap] at ha
  obtain ⟨x, hx, ha⟩ := ha
  rw [List.mem_range] at hy hx
  rcases List.mem_append.mp ha with ha | ha
  · rw [List.mem_flatMap] at ha
    obtain ⟨fy, hfy, ha⟩ := ha
    rw [List.mem_flatMap] at ha
    obtain ⟨fx, hfx, ha⟩ := ha
    rw [List.mem_range] at hfy hfx
    split_ifs at ha with hcond
    · obtain ⟨h1, h2, h3, h4⟩ := hcond
      rcases List.mem_cons.mp ha with h | h
      · subst h
        exact tap_index_bounds H W _ _ h1 h2 h3 h4
      · obtain rfl := List.mem_singleton.mp h
        have := index_lt FH FW fy fx hfy hfx
        constructor
        · positivity
        · exact_mod_cast this
    · cases ha
  · obtain rfl := List.mem_singleton.mp ha
    have := index_lt H W y x hy hx
    constructor
    · positivity
    · exact_mod_cast this

/-- C17: when the input buffer has length `height * width` and `filt->coefs` has length
`filt_h * filt_w` (all four dimensions non-negative), every array access of `filter_image` is
in bounds: each `img_idx` read is a valid index of `input`, each `filt_idx` a valid index of
`filt->coefs`, each index `y * width + x` written a valid index of the output buffer; and the
indices written, in program order, are `0, 1, .., height * width - 1`, so that each cell is
written exactly once. -/
theorem C17_filter_image_accesses_in_bounds (filt : Filter) (input : List Pixel)
    (height width : ℤ) (hh : 0 ≤ height) (hw : 0 ≤ width) (hfh : 0 ≤ filt.height)
    (hfw : 0 ≤ filt.width) (hi : (input.length : ℤ) = height * width)
    (hc : (filt.coefs.length : ℤ) = filt.height * filt.width) :
    (∀ a ∈ filter_image.accesses filt height width,
      Access.inBounds input.length filt.coefs.length
        (filter_image filt input height width).length a) ∧
    (filter_image.accesses filt height width).filterMap Access.written =
      (List.range (height * width).toNat).map (fun (i : ℕ) => (i : ℤ)) ∧
    ((filter_image.accesses filt height width).filterMap Access.written).Nodup := by
  obtain ⟨H, rfl⟩ := Int.eq_ofNat_of_zero_le hh
  obtain ⟨W, rfl⟩ := Int.eq_ofNat_of_zero_le hw
  obtain ⟨FH, hFH⟩ := Int.eq_ofNat_of_zero_le hfh
  obtain ⟨FW, hFW⟩ := Int.eq_ofNat_of_zero_le hfw
  have hcast : ((H : ℤ) * (W : ℤ)).toNat = H * W := by
    rw [← Nat.cast_mul, Int.toNat_natCast]
  have hil : input.length = H * W := by exact_mod_cast hi
  have hcl : filt.coefs.length = FH * FW := by rw [hFH, hFW] at hc; exact_mod_cast hc
  have hwr := written_accesses filt H W
  refine ⟨?_, ?_, ?_⟩
  · rw [length_filter_image, hcast, hil, hcl]
    exact accesses_in_bounds filt H W FH FW hFH hFW
  · rw [hcast]
    exact hwr
  · rw [hwr]
    exact List.Nodup.map (fun a b h => by exact_mod_cast h) (List.nodup_range _)

/-- C17, for the Laplacian on a 2x2 image. -/
theorem C17_filter_image_accesses_in_bounds_witness :
    ((0 : ℤ) ≤ 2 ∧ (0 : ℤ) ≤ initialize_3x3_laplacian.height ∧
      ((List.replicate 4 (Pixel.num 1)).length : ℤ) = 2 * 2 ∧
      (initialize_3x3_laplacian.coefs.length : ℤ) =
        initialize_3x3_laplacian.height * initialize_3x3_laplacian.width) ∧
    (∀ a ∈ filter_image.accesses initialize_3x3_laplacian 2 2,
      Access.inBounds (List.replicate 4 (Pixel.num 1)).length
        initialize_3x3_laplacian.coefs.length
        (filter_image initialize_3x3_laplacian (List.replicate 4 (Pixel.num 1)) 2 2).length
        a) ∧
    (filter_image.accesses initialize_3x3_laplacian 2 2).filterMap Access.written =
      [0, 1, 2, 3] :=
  ⟨⟨by decide, by decide, by decide, by decide⟩,
    (C17_filter_image_accesses_in_bounds initialize_3x3_laplacian
      (List.replicate 4 (Pixel.num 1)) 2 2 (by decide) (by decide) (by decide) (by decide)
      (by decide) (by decide)).1,
    (C17_filter_image_accesses_in_bounds initialize_3x3_laplacian
      (List.replicate 4 (Pixel.num 1)) 2 2 (by decide) (by decide) (by decide) (by decide)
      (by decide) (by decide)).2.1.trans (by decide)⟩

/-! ## Zero padding and linearity -/

theorem getD_zipWith_lin (p q : List ℚ) (a b : ℚ) (hpq : p.length = q.length) (i : ℕ) :
    (List.zipWith (fun u v => a * u + b * v) p q).getD i 0 =
      a * p.getD i 0 + b * q.getD i 0 := by
  simp only [List.getD_eq_getElem?_getD, List.getElem?_zipWith]
  by_cases hi : i < p.length
  · have hi2 : i < q.length := by omega
    rw [List.getElem?_eq_getElem hi, List.getElem?_eq_getElem hi2]
    rfl
  · have hi2 : ¬ i < q.length := by omega
    rw [List.getElem?_eq_none (by omega), List.getElem?_eq_none (by omega)]
    simp

/-- The sum over the in-bounds taps is linear in the image. -/
theorem tap_sum_lin (FH FW H W : ℕ) (coefs p q : List ℚ) (a b : ℚ)
    (hpq : p.length = q.length) (y x : ℕ) :
    ∑ t ∈ inBoundsTaps FH FW H W y x,
        tapTerm FH FW coefs (List.zipWith (fun u v => a * u + b * v) p q) W y x t =
      a * ∑ t ∈ inBoundsTaps FH FW H W y x, tapTerm FH FW coefs p W y x t +
        b * ∑ t ∈ inBoundsTaps FH FW H W y x, tapTerm FH FW coefs q W y x t := by
  rw [Finset.mul_sum, Finset.mul_sum, ← Finset.sum_add_distrib]
  apply Finset.sum_congr rfl
  intro t _
  unfold tapTerm
  rw [getD_zipWith_lin p q a b hpq]
  ring

/-- The sum over the in-bounds taps vanishes on the all-zero image. -/
theorem tap_sum_zero (FH FW H W n : ℕ) (coefs : List ℚ) (y x : ℕ) :
    ∑ t ∈ inBoundsTaps FH FW H W y x,
        tapTerm FH FW coefs (List.replicate n (0 : ℚ)) W y x t = 0 := by
  apply Finset.sum_eq_zero
  intro t _
  unfold tapTerm
  rw [List.getD_eq_getElem?_getD, List.getElem?_replicate]
  split_ifs <;> simp

/-- C19: `filter_image` is linear in the image, for a fixed kernel and fixed dimensions:
with `FP` and `FQ` the filtered buffers of the images `p` and `q`, the filtered buffer of
`a * p + b * q` is `a * FP + b * FQ` entrywise (exact arithmetic); and the all-zero image is
mapped to the all-zero buffer. -/
theorem C19_filter_image_linear (FH FW H W : ℕ) (coefs p q : List ℚ) (a b : ℚ)
    (hc : coefs.length = FH * FW) (hp : p.length = H * W) (hq : q.length = H * W) :
    (∃ FP FQ : List ℚ,
      filter_image ⟨FH, FW, coefs.map Pixel.num⟩ (p.map Pixel.num) H W = FP.map Pixel.num ∧
      filter_image ⟨FH, FW, coefs.map Pixel.num⟩ (q.map Pixel.num) H W = FQ.map Pixel.num ∧
      FP.length = H * W ∧ FQ.length = H * W ∧
      filter_image ⟨FH, FW, coefs.map Pixel.num⟩
          ((List.zipWith (fun u v => a * u + b * v) p q).map Pixel.num) H W =
        (List.zipWith (fun u v => a * u + b * v) FP FQ).map Pixel.num) ∧
    filter_image ⟨FH, FW, coefs.map Pixel.num⟩
        ((List.replicate (H * W) (0 : ℚ)).map Pixel.num) H W =
      (List.replicate (H * W) (0 : ℚ)).map Pixel.num := by
  constructor
  · refine ⟨_, _, filter_image_num FH FW H W coefs p hc hp,
      filter_image_num FH FW H W coefs q hc hq, by simp, by simp, ?_⟩
    have hz : (List.zipWith (fun u v => a * u + b * v) p q).length = H * W := by
      rw [List.length_zipWith, hp, hq, min_self]
    rw [filter_image_num FH FW H W coefs _ hc hz]
    congr 1
    apply List.ext_getElem?
    intro i
    simp only [List.getElem?_zipWith, List.getElem?_map]
    by_cases hi : i < H * W
    · rw [List.getElem?_range hi]
      simp only [Option.map_some']
      rw [tap_sum_lin FH FW H W coefs p q a b (by rw [hp, hq])]
    · rw [List.getElem?_eq_none (by simpa using hi)]
      rfl
  · rw [filter_image_num FH FW H W coefs _ hc (by simp)]
    congr 1
    have h2 : List.replicate (H * W) (0 : ℚ) =
        (List.range (H * W)).map (fun _ => (0 : ℚ)) := by
      rw [List.map_const', List.length_range]
    rw [h2]
    apply List.map_congr_left
    intro i _
    rw [← h2]
    exact tap_sum_zero FH FW H W (H * W) coefs (i / W) (i % W)

/-- C19, for the Laplacian and the 1x2 images `p = [1, 2]`, `q = [0, 1]` with `a = 2`, `b = 3`:
the filtered buffers are `[6, 15]` and `[-1, 8]`, and the one of `2p + 3q = [2, 7]` is
`[9, 54]`. -/
theorem C19_filter_image_linear_witness :
    (laplacianCoefs.length = 3 * 3 ∧ ([1, 2] : List ℚ).length = 1 * 2 ∧
      ([0, 1] : List ℚ).length = 1 * 2) ∧
    filter_image ⟨(3 : ℕ), (3 : ℕ), laplacianCoefs.map Pixel.num⟩
        ((List.zipWith (fun u v => 2 * u + 3 * v) ([1, 2] : List ℚ) [0, 1]).map Pixel.num)
        (1 : ℕ) (2 : ℕ) =
      (List.zipWith (fun u v => 2 * u + 3 * v) ([6, 15] : List ℚ) [-1, 8]).map Pixel.num := by
  refine ⟨⟨by decide, by decide, by decide⟩, ?_⟩
  obtain ⟨FP, FQ, hP, hQ, _, _, h⟩ :=
    (C19_filter_image_linear 3 3 1 2 laplacianCoefs [1, 2] [0, 1] 2 3 (by decide) (by decide)
      (by decide)).1
  have hP2 : FP = [6, 15] :=
    List.map_injective_iff.mpr Pixel.num_injective (hP.symm.trans (by decide!))
  have hQ2 : FQ = [-1, 8] :=
    List.map_injective_iff.mpr Pixel.num_injective (hQ.symm.trans (by decide!))
  subst hP2 hQ2
  exact h

/-! ## The sign of the variance -/

theorem sq_dev_sum_nonneg (F : List ℚ) (m : ℚ) : 0 ≤ (F.map (fun v => (v - m) ^ 2)).sum := by
  induction F with
  | nil => simp
  | cons a F ih =>
    rw [List.map_cons, List.sum_cons]
    have := sq_nonneg (a - m)
    linarith

theorem sum_of_forall_eq (F : List ℚ) (u : ℚ) (h : ∀ v ∈ F, v = u) :
    F.sum = (F.length : ℚ) * u := by
  induction F with
  | nil => simp
  | cons a F ih =>
    rw [List.sum_cons, List.length_cons, ih (fun v hv => h v (List.mem_cons_of_mem a hv)),
      h a (List.mem_cons_self a F)]
    push_cast
    ring

theorem sq_dev_sum_of_forall_eq (F : List ℚ) (m : ℚ) (h : ∀ v ∈ F, v = m) :
    (F.map (fun v => (v - m) ^ 2)).sum = 0 := by
  induction F with
  | nil => simp
  | cons a F ih =>
    rw [List.map_cons, List.sum_cons, ih (fun v hv => h v (List.mem_cons_of_mem a hv)),
      h a (List.mem_cons_self a F)]
    ring

/-- C20 fails in the binary64 arithmetic of the code.  On the 1x1 image `[2^1021]` the
product `8 * 2^1021` overflows to infinity and the result is NaN, which is not a value
`≥ 0`.  On the 1x3 image `[0.054, 0.06, 0.054]` the three filtered entries are equal, yet the
mean is rounded and the variance is `2^-108`, not 0.  On the 1x2 image `[1e-200, 0]` the two
filtered entries differ, yet the squares underflow and the variance is 0. -/
theorem C20_counterexample :
    F64.get_variance_sharpness [Pixel.num (2 ^ 1021)] 1 1 = Pixel.nan ∧
    F64.filter_image initialize_3x3_laplacian
        [roundDouble 0.054, roundDouble 0.06, roundDouble 0.054] 1 3 =
      List.replicate 3 (Pixel.num (3350678122763649 / 2 ^ 53)) ∧
    F64.get_variance_sharpness [roundDouble 0.054, roundDouble 0.06, roundDouble 0.054] 1 3 =
      Pixel.num (1 / 2 ^ 108) ∧
    F64.filter_image initialize_3x3_laplacian [roundDouble 1e-200, Pixel.num 0] 1 2 =
      [Pixel.round (roundDouble 1e-200 * Pixel.num 8),
        Pixel.round (roundDouble 1e-200 * Pixel.num (-1))] ∧
    Pixel.round (roundDouble 1e-200 * Pixel.num 8) ≠
      Pixel.round (roundDouble 1e-200 * Pixel.num (-1)) ∧
    F64.get_variance_sharpness [roundDouble 1e-200, Pixel.num 0] 1 2 = Pixel.num 0 := by
  refine ⟨by decide!, by decide!, by decide!, by decide!, by decide!, by decide!⟩

/-- C20 (amended): for every image of `H * W > 0` finite samples: in the binary64
arithmetic of the code the result of `get_variance_sharpness` is never negative, it is NaN
(after an overflow), `+∞`, or a finite value `≥ 0`; in exact arithmetic, with `F` the
Laplacian-filtered buffer, the result is a finite value `r ≥ 0`, and `r = 0` exactly when
all the entries of `F` are equal to one another. -/
theorem C20_variance_sharpness_nonneg (H W : ℕ) (input : List ℚ)
    (hi : input.length = H * W) (hn : 0 < H * W) :
    (F64.get_variance_sharpness (input.map Pixel.num) H W = Pixel.nan ∨
      F64.get_variance_sharpness (input.map Pixel.num) H W = Pixel.inf false ∨
      ∃ r : ℚ, 0 ≤ r ∧ F64.get_variance_sharpness (input.map Pixel.num) H W = Pixel.num r) ∧
    ∃ (F : List ℚ) (r : ℚ),
      filter_image initialize_3x3_laplacian (input.map Pixel.num) H W = F.map Pixel.num ∧
      get_variance_sharpness (input.map Pixel.num) H W = Pixel.num r ∧
      0 ≤ r ∧ (r = 0 ↔ ∀ u ∈ F, ∀ v ∈ F, u = v) := by
  have hbin : F64.get_variance_sharpness (input.map Pixel.num) H W = Pixel.nan ∨
      F64.get_variance_sharpness (input.map Pixel.num) H W = Pixel.inf false ∨
      ∃ r : ℚ, 0 ≤ r ∧
        F64.get_variance_sharpness (input.map Pixel.num) H W = Pixel.num r := by
    unfold F64.get_variance_sharpness
    exact F64_get_variance_notNeg _ _ (by exact_mod_cast hn) _
  obtain ⟨F, hF⟩ := filter_image_laplacian_num H W input hi
  have hlen : F.length = H * W := by
    have := length_filter_image initialize_3x3_laplacian (input.map Pixel.num) H W
    rw [hF, List.length_map, ← Nat.cast_mul, Int.toNat_natCast] at this
    exact this
  have hpos : (0 : ℤ) < (H : ℤ) * (W : ℤ) := by exact_mod_cast hn
  have hv := get_variance_sharpness_num (input.map Pixel.num) H W F hF hpos
  have hnq : (0 : ℚ) < (((H : ℤ) * (W : ℤ) : ℤ) : ℚ) := by exact_mod_cast hpos
  have hne : (((H : ℤ) * (W : ℤ) : ℤ) : ℚ) ≠ 0 := ne_of_gt hnq
  have hcast : (((H : ℤ) * (W : ℤ) : ℤ) : ℚ) = (F.length : ℚ) := by
    rw [hlen]; push_cast; ring
  refine ⟨hbin, F, _, hF, hv, div_nonneg (sq_dev_sum_nonneg F _) (le_of_lt hnq), ?_⟩
  constructor
  · intro h0
    rw [div_eq_zero_iff] at h0
    have hall := sq_dev_sum_eq_zero F _ (h0.resolve_right hne)
    intro u hu v hv'
    rw [hall u hu, hall v hv']
  · intro hall
    have hFne : F ≠ [] := by
      intro h
      rw [h, List.length_nil] at hlen
      rw [← hlen] at hn
      exact Nat.lt_irrefl 0 hn
    obtain ⟨u0, F', hF'⟩ := List.exists_cons_of_ne_nil hFne
    have hu0 : u0 ∈ F := by rw [hF']; exact List.mem_cons_self u0 F'
    have hall0 : ∀ v ∈ F, v = u0 := fun v hv' => hall v hv' u0 hu0
    have hm : F.sum / (((H : ℤ) * (W : ℤ) : ℤ) : ℚ) = u0 := by
      rw [sum_of_forall_eq F u0 hall0, hcast, mul_comm, mul_div_assoc, div_self (hcast ▸ hne),
        mul_one]
    rw [hm, sq_dev_sum_of_forall_eq F u0 hall0, zero_div]

/-- C20 (amended), at the 1x2 image `[1, 2]`, whose filtered buffer `[6, 15]` is not
uniform: the variance is `81/4 > 0`. -/
theorem C20_variance_sharpness_nonneg_witness :
    (([1, 2] : List ℚ).length = 1 * 2 ∧ 0 < 1 * 2) ∧
    (F64.get_variance_sharpness (([1, 2] : List ℚ).map Pixel.num) (1 : ℕ) (2 : ℕ) =
        Pixel.nan ∨
      F64.get_variance_sharpness (([1, 2] : List ℚ).map Pixel.num) (1 : ℕ) (2 : ℕ) =
        Pixel.inf false ∨
      ∃ r : ℚ, 0 ≤ r ∧
        F64.get_variance_sharpness (([1, 2] : List ℚ).map Pixel.num) (1 : ℕ) (2 : ℕ) =
          Pixel.num r) ∧
    ∃ (F : List ℚ) (r : ℚ),
      filter_image initialize_3x3_laplacian (([1, 2] : List ℚ).map Pixel.num)
        (1 : ℕ) (2 : ℕ) = F.map Pixel.num ∧
      get_variance_sharpness (([1, 2] : List ℚ).map Pixel.num) (1 : ℕ) (2 : ℕ) = Pixel.num r ∧
      0 ≤ r ∧ (r = 0 ↔ ∀ u ∈ F, ∀ v ∈ F, u = v) :=
  ⟨⟨by decide, by decide⟩,
    C20_variance_sharpness_nonneg 1 2 [1, 2] (by decide) (by decide)⟩

end PhotoHive
